import Mathlib

/-
  Verification development for the in-memory file cache
  (lib/inmemfilecache.js).

  The embedding models the self-contained implementation of
  lib/inmemfilecache.js.  JavaScript data is modelled as follows:
  - file contents are JS strings read with an encoding (length in code
    units; for the ASCII contents used here this equals Lean's
    String.length);
  - JS objects used as maps (g_cachedFiles, g_trackedFolders,
    folderInfo.fileIds) are association lists in insertion order, which
    is the enumeration order of for-in over non-numeric string keys;
  - JS numbers holding byte counts are Int;
  - fs.watch handles are numbered by an allocation counter
    (nextWatcher); closing a handle appends its number to
    closedWatchers;
  - a thrown JS exception is Res.err carrying the state at the moment
    of the throw (the cache object survives the exception and can be
    used afterwards); an infinite loop is Res.hang.

  Read options are modelled by JsVal, a tree of JSON-serialisable
  JavaScript values (plus undefined).  JSON.stringify and the filename
  extraction of JSON.parse are implemented character by character on
  this domain.
-/

namespace InMemFileCache

/- JavaScript values passed as read options. -/
inductive JsVal where
  | undef : JsVal
  | null : JsVal
  | bool : Bool → JsVal
  | num : Int → JsVal
  | str : String → JsVal
  | arr : List JsVal → JsVal
  | obj : List (String × JsVal) → JsVal

/- Lower-case hexadecimal digit, as produced by JSON.stringify. -/
def hexDigitChar (n : Nat) : Char :=
  if n < 10 then Char.ofNat (48 + n) else Char.ofNat (87 + n)

/- JSON.stringify escaping of a single character inside a string
   literal: quote and backslash are escaped, control characters get
   their short escapes or a \u00xx escape. -/
def escapeJsonChar (c : Char) : List Char :=
  if c = '"' then ['\\', '"']
  else if c = '\\' then ['\\', '\\']
  else if c = Char.ofNat 8 then ['\\', 'b']
  else if c = Char.ofNat 9 then ['\\', 't']
  else if c = Char.ofNat 10 then ['\\', 'n']
  else if c = Char.ofNat 12 then ['\\', 'f']
  else if c = Char.ofNat 13 then ['\\', 'r']
  else if c.toNat < 32 then
    ['\\', 'u', '0', '0', hexDigitChar (c.toNat / 16), hexDigitChar (c.toNat % 16)]
  else [c]

def escapeChars : List Char → List Char
  | [] => []
  | c :: cs => escapeJsonChar c ++ escapeChars cs

/- A JSON string literal: quote, escaped characters, quote. -/
def encodeJsonString (s : String) : String :=
  String.mk ('"' :: (escapeChars s.data ++ ['"']))

mutual

/- JSON.stringify on a JsVal; none models the undefined result
   (undefined values serialise to nothing: dropped in objects). -/
def stringifyVal : JsVal → Option String
  | JsVal.undef => none
  | JsVal.null => some "null"
  | JsVal.bool b => some (if b then "true" else "false")
  | JsVal.num n => some (toString n)
  | JsVal.str s => some (encodeJsonString s)
  | JsVal.arr xs => some ("[" ++ String.intercalate "," (stringifyArr xs) ++ "]")
  | JsVal.obj fs => some ("\x7b" ++ String.intercalate "," (stringifyObj fs) ++ "\x7d")

def stringifyArr : List JsVal → List String
  | [] => []
  | x :: xs =>
    (match stringifyVal x with
     | some s => s
     | none => "null") :: stringifyArr xs

def stringifyObj : List (String × JsVal) → List String
  | [] => []
  | (k, v) :: fs =>
    match stringifyVal v with
    | some s => (encodeJsonString k ++ ":" ++ s) :: stringifyObj fs
    | none => stringifyObj fs

end

/- makeId (lib/inmemfilecache.js lines 74-76):
   JSON.stringify of the two-field object with filename first; an
   undefined options value makes the options field disappear. -/
def makeId (filename : String) (options : JsVal) : String :=
  "\x7b\"filename\":" ++ encodeJsonString filename ++
    (match stringifyVal options with
     | some os => ",\"options\":" ++ os
     | none => "") ++ "\x7d"

/- The characters makeId places after the encoded filename value:
   the optional options field and the closing brace. -/
def optionsChunk (o : JsVal) : List Char :=
  ((match stringifyVal o with
    | some os => ",\"options\":" ++ os
    | none => "") ++ "\x7d").data

def hexVal (c : Char) : Option Nat :=
  if 48 ≤ c.toNat ∧ c.toNat ≤ 57 then some (c.toNat - 48)
  else if 97 ≤ c.toNat ∧ c.toNat ≤ 102 then some (c.toNat - 87)
  else if 65 ≤ c.toNat ∧ c.toNat ≤ 70 then some (c.toNat - 55)
  else none

/- The value of a four-digit hexadecimal escape. -/
def decodeHex4 (a b c2 d : Char) : Option Nat :=
  match hexVal a, hexVal b, hexVal c2, hexVal d with
  | some x, some y, some z, some w => some (((x * 16 + y) * 16 + z) * 16 + w)
  | _, _, _, _ => none

/- The character named by a short escape sequence. -/
def unescapeChar (e : Char) : Option Char :=
  if e = '"' then some '"'
  else if e = '\\' then some '\\'
  else if e = '/' then some '/'
  else if e = 'b' then some (Char.ofNat 8)
  else if e = 't' then some (Char.ofNat 9)
  else if e = 'n' then some (Char.ofNat 10)
  else if e = 'f' then some (Char.ofNat 12)
  else if e = 'r' then some (Char.ofNat 13)
  else none

/- Decode a JSON string literal body (the characters after the opening
   quote); returns the decoded characters and the remainder after the
   closing quote. -/
def decodeStrGo : List Char → Option (List Char × List Char)
  | [] => none
  | c :: rest =>
    if c = '"' then some ([], rest)
    else if c = '\\' then
      (match rest with
       | [] => none
       | e :: rest2 =>
         if e = 'u' then
           (match rest2 with
            | a :: b :: c2 :: d :: rest3 =>
              (match decodeHex4 a b c2 d with
               | some n => (decodeStrGo rest3).map (fun p => (Char.ofNat n :: p.1, p.2))
               | none => none)
            | _ => none)
         else
           (match unescapeChar e with
            | some ch => (decodeStrGo rest2).map (fun p => (ch :: p.1, p.2))
            | none => none))
    else (decodeStrGo rest).map (fun p => (c :: p.1, p.2))

/- Match a fixed pattern at the start of a character list. -/
def dropStart : List Char → List Char → Option (List Char)
  | [], cs => some cs
  | _ :: _, [] => none
  | p :: ps, c :: cs => if c = p then dropStart ps cs else none

/- getFilenameFromId (lib/inmemfilecache.js lines 64-66):
   JSON.parse(id).filename.  Every id the program stores is produced by
   makeId, so the parse is modelled on that shape: the literal text up
   to and including the opening quote of the filename value, then the
   string-literal decoder.  none models the throw of JSON.parse (or of
   the later use of an undefined filename) on other strings. -/
def getFilenameFromId (id : String) : Option String :=
  match dropStart ("\x7b\"filename\":\"".data) id.data with
  | some rest =>
    (match decodeStrGo rest with
     | some p => some (String.mk p.1)
     | none => none)
  | none => none

/- node path.dirname for posix paths, modelled on the scan of the
   node implementation: ignore trailing slashes of the last component,
   cut at the preceding slash; no slash found gives "." (or "/" for
   absolute paths). -/
def pathDirname (p : String) : String :=
  match p.data with
  | [] => "."
  | c0 :: body =>
    let r1 := body.reverse.dropWhile (fun c => c = '/')
    let r2 := r1.dropWhile (fun c => c ≠ '/')
    match r2 with
    | [] => if c0 = '/' then "/" else "."
    | _ :: r3 =>
      if c0 = '/' ∧ r3 = [] then "//"
      else String.mk (c0 :: r3.reverse)

def splitSlash : List Char → List (List Char)
  | [] => [[]]
  | c :: rest =>
    if c = '/' then [] :: splitSlash rest
    else
      match splitSlash rest with
      | [] => [[c]]
      | g :: gs => (c :: g) :: gs

/- Segment normalisation of node path.normalize: empty and dot
   segments vanish, dot-dot pops the previous segment where possible. -/
def normCollapse (isAbs : Bool) : List (List Char) → List (List Char) → List (List Char)
  | acc, [] => acc.reverse
  | acc, s :: rest =>
    if s = [] ∨ s = ['.'] then normCollapse isAbs acc rest
    else if s = ['.', '.'] then
      (match acc with
       | [] => if isAbs then normCollapse isAbs [] rest else normCollapse isAbs [s] rest
       | t :: ts =>
         if t = ['.', '.'] then normCollapse isAbs (s :: acc) rest
         else normCollapse isAbs ts rest)
    else normCollapse isAbs (s :: acc) rest

def joinSegs : List (List Char) → List Char
  | [] => []
  | [s] => s
  | s :: rest => s ++ '/' :: joinSegs rest

def pathNormalize (p : String) : String :=
  match p.data with
  | [] => "."
  | cs =>
    let isAbs := cs.head? = some '/'
    let hasTrail := cs.getLast? = some '/'
    let segs := normCollapse isAbs [] (splitSlash cs)
    let body := joinSegs segs
    let out :=
      if segs = [] then
        (if isAbs then ['/'] else if hasTrail then ['.', '/'] else ['.'])
      else (if isAbs then '/' :: body else body) ++ (if hasTrail then ['/'] else [])
    String.mk out

/- node path.join of two parts: concatenate the nonempty parts with a
   slash and normalize; the empty join gives ".". -/
def pathJoin (a b : String) : String :=
  let joined := if a = "" then b else if b = "" then a else a ++ "/" ++ b
  if joined = "" then "." else pathNormalize joined

/- Association-list operations with JS object semantics: lookup by
   key, assignment (replace in place, else append), delete. -/
def lookupKey {α : Type} : List (String × α) → String → Option α
  | [], _ => none
  | (k, v) :: rest, key => if k = key then some v else lookupKey rest key

def setKey {α : Type} : List (String × α) → String → α → List (String × α)
  | [], key, v => [(key, v)]
  | (k, w) :: rest, key, v =>
    if k = key then (key, v) :: rest else (k, w) :: setKey rest key v

def delKey {α : Type} : List (String × α) → String → List (String × α)
  | [], _ => []
  | (k, w) :: rest, key => if k = key then rest else (k, w) :: delKey rest key

/- Tracker of one watched directory (lib/inmemfilecache.js lines
   190-194): the watch handle, the set of cached ids under the
   directory, and their count. -/
structure FolderInfo where
  watcher : Nat
  fileIds : List String
  numFiles : Int
deriving DecidableEq, Repr

/- The per-instance state of the cache: the g_ variables of the
   constructor, plus the watch-handle ledger. -/
structure CacheState where
  cacheSize : Int
  cacheSizeLimit : Int
  fileLRUList : List String
  cachedFiles : List (String × String)
  trackedFolders : List (String × FolderInfo)
  numTrackedFolders : Int
  checkForFileChanges : Bool
  nextWatcher : Nat
  closedWatchers : List Nat
deriving DecidableEq, Repr

inductive JsErr where
  | typeErr : String → JsErr
  | refErr : String → JsErr
  | parseErr : String → JsErr
deriving DecidableEq, Repr

/- Outcome of a call: normal return, a thrown exception together with
   the state at the throw, or nontermination. -/
inductive Res (α : Type) where
  | ok : α → Res α
  | err : JsErr → CacheState → Res α
  | hang : Res α
deriving DecidableEq, Repr

/- Constructor (lines 49-57): a falsy cacheSizeLimit falls back to
   64 MiB; checkForFileChanges defaults to true. -/
def initState (cacheSizeLimit : Option Nat) (checkForFileChanges : Bool) : CacheState :=
  { cacheSize := 0
    cacheSizeLimit :=
      match cacheSizeLimit with
      | some n => if n = 0 then 67108864 else (n : Int)
      | none => 67108864
    fileLRUList := []
    cachedFiles := []
    trackedFolders := []
    numTrackedFolders := 0
    checkForFileChanges := checkForFileChanges
    nextWatcher := 0
    closedWatchers := [] }

/- One iteration of removeById (lines 82-116) for a single id.
   Reading contents.length of an absent entry throws a TypeError.
   The line var index = g_fileLRUList[id] looks the id string up as an
   object property of the array, which yields undefined, so the guard
   index >= 0 is always false and the id is never spliced out of the
   LRU list; this is modelled by not touching fileLRUList at all.
   The two console.error branches proceed without mutation. -/
def removeOne (id : String) (s : CacheState) : Res CacheState :=
  match lookupKey s.cachedFiles id with
  | none => Res.err (JsErr.typeErr "cannot read length of undefined") s
  | some contents =>
    -- the truthiness guard if (contents.length) around the decrement
    -- is kept on the size expression; the map delete follows
    let s2 : CacheState :=
      { s with
        cacheSize :=
          if contents.length ≠ 0 then s.cacheSize - (contents.length : Int)
          else s.cacheSize
        cachedFiles := delKey s.cachedFiles id }
    match getFilenameFromId id with
    | none => Res.err (JsErr.parseErr "JSON.parse") s2
    | some filename =>
      -- s2 has the checkForFileChanges and trackedFolders of s
      if s.checkForFileChanges then
        let dirname := pathDirname filename
        match lookupKey s.trackedFolders dirname with
        | none => Res.ok s2
        | some folderInfo =>
          if id ∈ folderInfo.fileIds then
            let fi2 : FolderInfo :=
              { folderInfo with
                fileIds := folderInfo.fileIds.erase id
                numFiles := folderInfo.numFiles - 1 }
            if fi2.numFiles = 0 then
              Res.ok { s2 with
                trackedFolders := delKey s.trackedFolders dirname
                numTrackedFolders := s.numTrackedFolders - 1
                closedWatchers := s.closedWatchers ++ [folderInfo.watcher] }
            else
              Res.ok { s2 with trackedFolders := setKey s.trackedFolders dirname fi2 }
          else Res.ok s2
      else Res.ok s2

/- removeById (lines 82-118): process the ids in order; an exception
   aborts the remaining ids. -/
def removeById (ids : List String) (s : CacheState) : Res CacheState :=
  match ids with
  | [] => Res.ok s
  | id :: rest =>
    match removeOne id s with
    | Res.ok s1 => removeById rest s1
    | Res.err e t => Res.err e t
    | Res.hang => Res.hang

/- The while loop of makeSpaceInCache (lines 128-133): splice the head
   off the LRU list and removeById it while over the target.  removeOne
   never writes fileLRUList, so the list argument stays equal to the
   fileLRUList field of the threaded state.  A spin with an empty list
   while still over the target never terminates (splice of the empty
   list yields an empty batch). -/
def makeSpaceGo (targetSize : Int) : List String → CacheState → Res CacheState
  | lru, s =>
    if s.cacheSize ≤ targetSize then Res.ok s
    else
      match lru with
      | [] => Res.hang
      | x :: rest =>
        match removeOne x { s with fileLRUList := rest } with
        | Res.ok s1 => makeSpaceGo targetSize rest s1
        | Res.err e t => Res.err e t
        | Res.hang => Res.hang

def makeSpaceInCache (spaceNeeded : Int) (s : CacheState) : Res CacheState :=
  makeSpaceGo (max 0 (s.cacheSizeLimit - spaceNeeded)) s.fileLRUList s

/- The collection loop of removeByFilename (lines 144-153): walk the
   cached-file keys in insertion order, parse each id, keep those whose
   filename matches.  A parse failure throws out of the loop before any
   removal. -/
def collectByName (target : String) : List (String × String) → Option (List String)
  | [] => some []
  | (id, _) :: rest =>
    match getFilenameFromId id with
    | none => none
    | some name =>
      match collectByName target rest with
      | none => none
      | some l => some (if name = target then id :: l else l)

def removeByFilename (filename : String) (s : CacheState) : Res CacheState :=
  match collectByName filename s.cachedFiles with
  | none => Res.err (JsErr.parseErr "JSON.parse") s
  | some ids => removeById ids s

/- removeByFolder (lines 159-168).  The loop body evaluates
   id.split(g_delim), and g_delim is declared nowhere in the file, so
   under strict mode the first iteration throws a ReferenceError; with
   an empty cached-file map the loop body never runs and
   removeById([]) is a no-op. -/
def removeByFolder (_folder : String) (s : CacheState) : Res CacheState :=
  match s.cachedFiles with
  | [] => removeById [] s
  | _ :: _ => Res.err (JsErr.refErr "g_delim is not defined") s

/- trackFolder (lines 174-205).  Creating a tracker registers a watch
   (allocate the next handle number) and stores an empty tracker, then
   the id is added; the two steps are composed here.  An id already in
   fileIds leaves the tracker unchanged. -/
def trackFolder (id : String) (s : CacheState) : Res CacheState :=
  if s.checkForFileChanges = false then Res.ok s
  else
    match getFilenameFromId id with
    | none => Res.err (JsErr.parseErr "JSON.parse") s
    | some filename =>
      let dirname := pathDirname filename
      match lookupKey s.trackedFolders dirname with
      | none =>
        let folderInfo : FolderInfo := { watcher := s.nextWatcher, fileIds := [id], numFiles := 1 }
        Res.ok { s with
          trackedFolders := s.trackedFolders ++ [(dirname, folderInfo)]
          numTrackedFolders := s.numTrackedFolders + 1
          nextWatcher := s.nextWatcher + 1 }
      | some folderInfo =>
        if id ∈ folderInfo.fileIds then Res.ok s
        else
          Res.ok { s with
            trackedFolders := setKey s.trackedFolders dirname
              { folderInfo with
                fileIds := folderInfo.fileIds ++ [id]
                numFiles := folderInfo.numFiles + 1 } }

/- getContentFromCache (lines 209-222): on a hit the id is moved to
   the most-recently-used end (splice at indexOf, then push); an id
   missing from the list is only logged. -/
def getContentFromCache (id : String) (s : CacheState) : Option String × CacheState :=
  match lookupKey s.cachedFiles id with
  | none => (none, s)
  | some content =>
    if id ∈ s.fileLRUList then
      (some content, { s with fileLRUList := s.fileLRUList.erase id ++ [id] })
    else (some content, s)

/- cacheContent (lines 224-236).  The oversized branch evaluates
   debug("file too big for cache: " + filename + ...), and filename is
   not declared in any enclosing scope, so under strict mode the branch
   throws a ReferenceError instead of merely logging. -/
def cacheContent (id data : String) (s : CacheState) : Res CacheState :=
  if (data.length : Int) ≤ s.cacheSizeLimit then
    match makeSpaceInCache (data.length : Int) s with
    | Res.ok s1 =>
      trackFolder id
        { s1 with
          cachedFiles := setKey s1.cachedFiles id data
          cacheSize := s1.cacheSize + (data.length : Int)
          fileLRUList := s1.fileLRUList ++ [id] }
    | Res.err e t => Res.err e t
    | Res.hang => Res.hang
  else Res.err (JsErr.refErr "filename is not defined") s

structure SyncOut where
  content : String
  state : CacheState
  didRead : Bool
deriving DecidableEq, Repr

/- readFileSync (lines 271-279), with the external fs.readFileSync
   result supplied as fsContent (didRead records whether that external
   read was performed).  The cached value is re-read on the falsy check
   !content, so a cached empty string is treated as a miss. -/
def readFileSync (filename : String) (options : JsVal) (fsContent : String)
    (s : CacheState) : Res SyncOut :=
  let id := makeId filename options
  match getContentFromCache id s with
  | (some content, s1) =>
    if content = "" then
      match cacheContent id fsContent s1 with
      | Res.ok s2 => Res.ok { content := fsContent, state := s2, didRead := true }
      | Res.err e t => Res.err e t
      | Res.hang => Res.hang
    else Res.ok { content := content, state := s1, didRead := false }
  | (none, s1) =>
    match cacheContent id fsContent s1 with
    | Res.ok s2 => Res.ok { content := fsContent, state := s2, didRead := true }
    | Res.err e t => Res.err e t
    | Res.hang => Res.hang

structure AsyncOut where
  cbData : Option String
  state : CacheState
  didRead : Bool
deriving DecidableEq, Repr

/- readFile (lines 242-265) modelled to completion of its callback:
   a hit (content strictly not undefined, so also an empty string)
   delivers the cached content without the external read; a miss
   performs the external read, whose outcome is supplied as fsResult
   (none is the error case: the callback gets the error and nothing is
   cached). -/
def readFile (filename : String) (options : JsVal) (fsResult : Option String)
    (s : CacheState) : Res AsyncOut :=
  let id := makeId filename options
  match getContentFromCache id s with
  | (some content, s1) => Res.ok { cbData := some content, state := s1, didRead := false }
  | (none, s1) =>
    match fsResult with
    | none => Res.ok { cbData := none, state := s1, didRead := true }
    | some data =>
      match cacheContent id data s1 with
      | Res.ok s2 => Res.ok { cbData := some data, state := s2, didRead := true }
      | Res.err e t => Res.err e t
      | Res.hang => Res.hang

/- clear (lines 284-295): close every watcher, reset everything. -/
def clearCache (s : CacheState) : CacheState :=
  { s with
    closedWatchers := s.closedWatchers ++ s.trackedFolders.map (fun p => p.2.watcher)
    trackedFolders := []
    numTrackedFolders := 0
    cachedFiles := []
    cacheSize := 0
    fileLRUList := [] }

/- setCacheSizeLimit (lines 302-305). -/
def setCacheSizeLimit (numBytes : Int) (s : CacheState) : Res CacheState :=
  makeSpaceInCache 0 { s with cacheSizeLimit := max 0 numBytes }

/- The watch callback registered by trackFolder (lines 182-188) for a
   directory: a truthy filename argument removes that one joined path,
   otherwise the whole folder is removed (the empty string is falsy). -/
def watchCallback (dirname : String) (changedName : Option String)
    (s : CacheState) : Res CacheState :=
  match changedName with
  | some fn =>
    if fn = "" then removeByFolder dirname s
    else removeByFilename (pathJoin dirname fn) s
  | none => removeByFolder dirname s

/- Sum of the byte lengths of all entries of the content map. -/
def mapSum (files : List (String × String)) : Int :=
  (files.map (fun p => (p.2.length : Int))).sum

/- The byte count agrees with the content map. -/
def SumInv (s : CacheState) : Prop := s.cacheSize = mapSum s.cachedFiles

def KeysNodup {α : Type} (l : List (String × α)) : Prop :=
  (l.map (fun p => p.1)).Nodup

/- Directory-tracker bookkeeping: counts match the id sets, no empty
   tracker is kept, and the tracker count matches the map. -/
def TrackInv (s : CacheState) : Prop :=
  (∀ p ∈ s.trackedFolders,
     p.2.numFiles = (p.2.fileIds.length : Int) ∧ p.2.fileIds ≠ [] ∧ p.2.fileIds.Nodup) ∧
  s.numTrackedFolders = (s.trackedFolders.length : Int) ∧
  KeysNodup s.trackedFolders

/- Watch-handle bookkeeping: live handles are distinct, not yet
   closed, and every closed handle was closed exactly once. -/
def WatchInv (s : CacheState) : Prop :=
  (∀ p ∈ s.trackedFolders,
     p.2.watcher < s.nextWatcher ∧ p.2.watcher ∉ s.closedWatchers) ∧
  (s.trackedFolders.map (fun p => p.2.watcher)).Nodup ∧
  s.closedWatchers.Nodup ∧
  (∀ w ∈ s.closedWatchers, w < s.nextWatcher)

/- Master invariant carried through every reachable state. -/
def Inv (s : CacheState) : Prop :=
  SumInv s ∧ KeysNodup s.cachedFiles ∧ 0 ≤ s.cacheSizeLimit ∧ TrackInv s ∧ WatchInv s

/- States reachable through the public operations; an operation that
   throws leaves the cache object usable, so the state carried by the
   exception is reachable as well. -/
inductive Reach : CacheState → Prop where
  | init : ∀ lim chk, Reach (initState lim chk)
  | syncOk : ∀ {s f o d r}, Reach s → readFileSync f o d s = Res.ok r → Reach r.state
  | syncErr : ∀ {s f o d e t}, Reach s → readFileSync f o d s = Res.err e t → Reach t
  | asyncOk : ∀ {s f o d r}, Reach s → readFile f o d s = Res.ok r → Reach r.state
  | asyncErr : ∀ {s f o d e t}, Reach s → readFile f o d s = Res.err e t → Reach t
  | watchOk : ∀ {s d n t}, Reach s → watchCallback d n s = Res.ok t → Reach t
  | watchErr : ∀ {s d n e t}, Reach s → watchCallback d n s = Res.err e t → Reach t
  | limitOk : ∀ {s n t}, Reach s → setCacheSizeLimit n s = Res.ok t → Reach t
  | limitErr : ∀ {s n e t}, Reach s → setCacheSizeLimit n s = Res.err e t → Reach t
  | clearStep : ∀ {s}, Reach s → Reach (clearCache s)

/- States reachable through operations that all completed normally. -/
inductive CleanReach : CacheState → Prop where
  | init : ∀ lim chk, CleanReach (initState lim chk)
  | syncOk : ∀ {s f o d r}, CleanReach s → readFileSync f o d s = Res.ok r → CleanReach r.state
  | asyncOk : ∀ {s f o d r}, CleanReach s → readFile f o d s = Res.ok r → CleanReach r.state
  | watchOk : ∀ {s d n t}, CleanReach s → watchCallback d n s = Res.ok t → CleanReach t
  | limitOk : ∀ {s n t}, CleanReach s → setCacheSizeLimit n s = Res.ok t → CleanReach t
  | clearStep : ∀ {s}, CleanReach s → CleanReach (clearCache s)

/- All ids of a list parse back to a filename. -/
def IdsOk (l : List String) : Prop := ∀ x ∈ l, (getFilenameFromId x).isSome

/- The healthy store shape of states never hit by a watch
   invalidation: the LRU list and the content map are in bijection. -/
def BijInv (s : CacheState) : Prop :=
  SumInv s ∧ KeysNodup s.cachedFiles ∧ s.fileLRUList.Nodup ∧
  (∀ x ∈ s.fileLRUList, lookupKey s.cachedFiles x ≠ none) ∧
  (∀ p ∈ s.cachedFiles, p.1 ∈ s.fileLRUList) ∧
  IdsOk s.fileLRUList

/- The invariant read off an operation outcome: it holds for the
   normal result as well as for the state carried by a throw. -/
def InvR : Res CacheState → Prop
  | Res.ok t => Inv t
  | Res.err _ t => Inv t
  | Res.hang => True

def InvRS : Res SyncOut → Prop
  | Res.ok r => Inv r.state
  | Res.err _ t => Inv t
  | Res.hang => True

def InvRA : Res AsyncOut → Prop
  | Res.ok r => Inv r.state
  | Res.err _ t => Inv t
  | Res.hang => True

/- Total byte size of the first j entries of the LRU list, read from
   the content map of s. -/
def takenSize (s : CacheState) (lru : List String) (j : Nat) : Int :=
  ((lru.take j).map (fun x => (((lookupKey s.cachedFiles x).getD "").length : Int))).sum

/- The content map with the entries of the given ids removed. -/
def withoutIds (m : List (String × String)) (ids : List String) : List (String × String) :=
  m.filter (fun p => !(decide (p.1 ∈ ids)))

/- The content map restricted to entries whose id names a different
   file than the given path. -/
def keepOtherNames (m : List (String × String)) (target : String) : List (String × String) :=
  m.filter (fun p => !(decide (getFilenameFromId p.1 = some target)))

def utf8 : JsVal := JsVal.str "utf-8"

/- A healthy state used to instantiate the file-invalidation theorem:
   one file cached under two distinct options plus a second file in
   the same directory. -/
def idA1 : String := makeId "sub/a.txt" utf8
def idA2 : String := makeId "sub/a.txt" JsVal.undef
def idB1 : String := makeId "sub/b.txt" utf8

def fileInvalState : CacheState :=
  { cacheSize := 9
    cacheSizeLimit := 100
    fileLRUList := [idA1, idA2, idB1]
    cachedFiles := [(idA1, "aaa"), (idA2, "AAA"), (idB1, "bbb")]
    trackedFolders := [("sub", { watcher := 0, fileIds := [idA1, idA2, idB1], numFiles := 3 })]
    numTrackedFolders := 1
    checkForFileChanges := true
    nextWatcher := 1
    closedWatchers := [] }

/- A state holding one cached empty file, used to instantiate the
   empty-content theorem. -/
def idE : String := makeId "d/e" utf8

def emptyEntryState : CacheState :=
  { cacheSize := 0
    cacheSizeLimit := 100
    fileLRUList := [idE]
    cachedFiles := [(idE, "")]
    trackedFolders := [("d", { watcher := 0, fileIds := [idE], numFiles := 1 })]
    numTrackedFolders := 1
    checkForFileChanges := true
    nextWatcher := 1
    closedWatchers := [] }

/- Intermediate states of the counterexample run for the size/limit
   invariant, written out explicitly so each step of the chain is
   checked as a single evaluation of one operation. -/
def c1s1 : CacheState :=
  { cacheSize := 10, cacheSizeLimit := 100,
    fileLRUList := [makeId "a/x" utf8],
    cachedFiles := [(makeId "a/x" utf8, "0123456789")],
    trackedFolders := [("a", { watcher := 0, fileIds := [makeId "a/x" utf8], numFiles := 1 })],
    numTrackedFolders := 1, checkForFileChanges := true, nextWatcher := 1, closedWatchers := [] }

def c1s2 : CacheState :=
  { cacheSize := 20, cacheSizeLimit := 100,
    fileLRUList := [makeId "a/x" utf8, makeId "a/y" utf8],
    cachedFiles := [(makeId "a/x" utf8, "0123456789"), (makeId "a/y" utf8, "0123456789")],
    trackedFolders := [("a", { watcher := 0, fileIds := [makeId "a/x" utf8, makeId "a/y" utf8], numFiles := 2 })],
    numTrackedFolders := 1, checkForFileChanges := true, nextWatcher := 1, closedWatchers := [] }

def c1s3 : CacheState :=
  { cacheSize := 10, cacheSizeLimit := 100,
    fileLRUList := [makeId "a/x" utf8, makeId "a/y" utf8],
    cachedFiles := [(makeId "a/y" utf8, "0123456789")],
    trackedFolders := [("a", { watcher := 0, fileIds := [makeId "a/y" utf8], numFiles := 1 })],
    numTrackedFolders := 1, checkForFileChanges := true, nextWatcher := 1, closedWatchers := [] }

def c1s4 : CacheState :=
  { cacheSize := 10, cacheSizeLimit := 5,
    fileLRUList := [makeId "a/y" utf8],
    cachedFiles := [(makeId "a/y" utf8, "0123456789")],
    trackedFolders := [("a", { watcher := 0, fileIds := [makeId "a/y" utf8], numFiles := 1 })],
    numTrackedFolders := 1, checkForFileChanges := true, nextWatcher := 1, closedWatchers := [] }

/- Intermediate states of the concrete limit-9 LRU-eviction scenario. -/
def c4sA : CacheState :=
  { cacheSize := 5, cacheSizeLimit := 9,
    fileLRUList := [makeId "d/A" utf8],
    cachedFiles := [(makeId "d/A" utf8, "aaaaa")],
    trackedFolders := [("d", { watcher := 0, fileIds := [makeId "d/A" utf8], numFiles := 1 })],
    numTrackedFolders := 1, checkForFileChanges := true, nextWatcher := 1, closedWatchers := [] }

def c4sB : CacheState :=
  { cacheSize := 9, cacheSizeLimit := 9,
    fileLRUList := [makeId "d/A" utf8, makeId "d/B" utf8],
    cachedFiles := [(makeId "d/A" utf8, "aaaaa"), (makeId "d/B" utf8, "bbbb")],
    trackedFolders := [("d", { watcher := 0, fileIds := [makeId "d/A" utf8, makeId "d/B" utf8], numFiles := 2 })],
    numTrackedFolders := 1, checkForFileChanges := true, nextWatcher := 1, closedWatchers := [] }

def c4sC : CacheState :=
  { cacheSize := 7, cacheSizeLimit := 9,
    fileLRUList := [makeId "d/B" utf8, makeId "d/C" utf8],
    cachedFiles := [(makeId "d/B" utf8, "bbbb"), (makeId "d/C" utf8, "ccc")],
    trackedFolders := [("d", { watcher := 0, fileIds := [makeId "d/B" utf8, makeId "d/C" utf8], numFiles := 2 })],
    numTrackedFolders := 1, checkForFileChanges := true, nextWatcher := 1, closedWatchers := [] }

/- Association-list lemmas. -/

theorem lookupKey_eq_none_iff {α : Type} (m : List (String × α)) (k : String) :
    lookupKey m k = none ↔ k ∉ m.map (fun p => p.1) := by
  induction m with
  | nil => simp [lookupKey]
  | cons p rest ih =>
    obtain ⟨k1, v1⟩ := p
    by_cases h : k1 = k
    · subst h
      simp [lookupKey]
    · have hne : ¬ (k = k1) := fun hh => h hh.symm
      rw [List.map_cons]
      simp only [lookupKey, if_neg h, List.mem_cons]
      rw [ih]
      constructor
      · intro h1 h2
        rcases h2 with h2 | h2
        · exact hne h2
        · exact h1 h2
      · intro h1 h2
        exact h1 (Or.inr h2)

theorem lookupKey_mem {α : Type} {m : List (String × α)} {k : String} {v : α}
    (h : lookupKey m k = some v) : (k, v) ∈ m := by
  induction m with
  | nil => simp [lookupKey] at h
  | cons p rest ih =>
    obtain ⟨k1, v1⟩ := p
    by_cases hk : k1 = k
    · subst hk
      simp [lookupKey] at h
      simp [h]
    · simp [lookupKey, hk] at h
      simpa using Or.inr (ih h)

theorem lookupKey_isSome_of_mem {α : Type} {m : List (String × α)} {p : String × α}
    (h : p ∈ m) : (lookupKey m p.1).isSome := by
  induction m with
  | nil => simp at h
  | cons q rest ih =>
    obtain ⟨k1, v1⟩ := q
    rcases List.mem_cons.mp h with h1 | h1
    · subst h1
      simp [lookupKey]
    · by_cases hk : k1 = p.1 <;> simp [lookupKey, hk, ih h1]

theorem delKey_perm {α : Type} {m : List (String × α)} {k : String} {v : α}
    (h : lookupKey m k = some v) : m.Perm ((k, v) :: delKey m k) := by
  induction m with
  | nil => simp [lookupKey] at h
  | cons p rest ih =>
    obtain ⟨k1, v1⟩ := p
    by_cases hk : k1 = k
    · subst hk
      simp [lookupKey] at h
      subst h
      simp [delKey]
    · simp [lookupKey, hk] at h
      have h1 := ih h
      simp only [delKey, if_neg hk]
      exact (h1.cons (k1, v1)).trans (List.Perm.swap (k, v) (k1, v1) (delKey rest k))

theorem delKey_subset {α : Type} {m : List (String × α)} {k : String} {p : String × α}
    (h : p ∈ delKey m k) : p ∈ m := by
  induction m with
  | nil => simp [delKey] at h
  | cons q rest ih =>
    obtain ⟨k1, v1⟩ := q
    by_cases hk : k1 = k
    · simp [delKey, hk] at h
      simp [h]
    · simp [delKey, hk] at h
      rcases h with h | h
      · simp [h]
      · simpa using Or.inr (ih h)

theorem lookupKey_delKey_ne {α : Type} (m : List (String × α)) {x k : String}
    (h : x ≠ k) : lookupKey (delKey m k) x = lookupKey m x := by
  induction m with
  | nil => simp [delKey]
  | cons q rest ih =>
    obtain ⟨k1, v1⟩ := q
    by_cases hk : k1 = k
    · subst hk
      have hne : ¬ (k1 = x) := fun hh => h hh.symm
      simp [delKey, lookupKey, hne]
    · by_cases hx : k1 = x
      · subst hx
        simp [delKey, hk, lookupKey]
      · simp [delKey, hk, lookupKey, hx, ih]

theorem keys_delKey_sub {α : Type} (m : List (String × α)) (k : String) :
    List.Sublist ((delKey m k).map (fun p => p.1)) (m.map (fun p => p.1)) := by
  induction m with
  | nil => simp [delKey]
  | cons q rest ih =>
    obtain ⟨k1, v1⟩ := q
    by_cases hk : k1 = k
    · simp [delKey, hk]
    · simpa [delKey, hk] using ih.cons₂ k1

theorem keysNodup_delKey {α : Type} {m : List (String × α)} (k : String)
    (h : KeysNodup m) : KeysNodup (delKey m k) :=
  List.Nodup.sublist (keys_delKey_sub m k) h

theorem delKey_sublist {α : Type} (m : List (String × α)) (k : String) :
    List.Sublist (delKey m k) m := by
  induction m with
  | nil => simp [delKey]
  | cons q rest ih =>
    obtain ⟨k1, v1⟩ := q
    by_cases hk : k1 = k
    · simp [delKey, hk]
    · simpa [delKey, hk] using ih.cons₂ (k1, v1)

theorem lookupKey_delKey_self {α : Type} {m : List (String × α)} {k : String}
    (h : KeysNodup m) : lookupKey (delKey m k) k = none := by
  induction m with
  | nil => simp [delKey, lookupKey]
  | cons q rest ih =>
    obtain ⟨k1, v1⟩ := q
    simp only [KeysNodup, List.map_cons, List.nodup_cons] at h
    by_cases hk : k1 = k
    · subst hk
      rw [lookupKey_eq_none_iff]
      simpa [delKey] using h.1
    · simp [delKey, hk, lookupKey, ih h.2]

theorem delKey_length {α : Type} {m : List (String × α)} {k : String} {v : α}
    (h : lookupKey m k = some v) : (delKey m k).length + 1 = m.length := by
  have := (delKey_perm h).length_eq
  simpa using this.symm

theorem mapSum_delKey {m : List (String × String)} {k : String} {v : String}
    (h : lookupKey m k = some v) :
    mapSum (delKey m k) = mapSum m - (v.length : Int) := by
  induction m with
  | nil => simp [lookupKey] at h
  | cons q rest ih =>
    obtain ⟨k1, v1⟩ := q
    by_cases hk : k1 = k
    · subst hk
      simp [lookupKey] at h
      subst h
      simp [delKey, mapSum]
    · simp [lookupKey, hk] at h
      simp [delKey, hk, mapSum, List.sum_cons] at ih ⊢
      rw [ih h]
      ring

theorem lookupKey_setKey_self {α : Type} (m : List (String × α)) (k : String) (v : α) :
    lookupKey (setKey m k v) k = some v := by
  induction m with
  | nil => simp [setKey, lookupKey]
  | cons q rest ih =>
    obtain ⟨k1, v1⟩ := q
    by_cases hk : k1 = k <;> simp [setKey, lookupKey, hk, ih]

theorem lookupKey_setKey_ne {α : Type} (m : List (String × α)) {x k : String} (v : α)
    (h : x ≠ k) : lookupKey (setKey m k v) x = lookupKey m x := by
  have hne : ¬ (k = x) := fun hh => h hh.symm
  induction m with
  | nil => simp [setKey, lookupKey, hne]
  | cons q rest ih =>
    obtain ⟨k1, v1⟩ := q
    by_cases hk : k1 = k
    · subst hk
      simp [setKey, lookupKey, hne]
    · by_cases hx : k1 = x
      · subst hx
        simp [setKey, hk, lookupKey]
      · simp [setKey, hk, lookupKey, hx, ih]

theorem keys_setKey_present {α : Type} {m : List (String × α)} {k : String} (v : α)
    (h : lookupKey m k ≠ none) :
    (setKey m k v).map (fun p => p.1) = m.map (fun p => p.1) := by
  induction m with
  | nil => simp [lookupKey] at h
  | cons q rest ih =>
    obtain ⟨k1, v1⟩ := q
    by_cases hk : k1 = k
    · simp [setKey, hk]
    · simp [lookupKey, hk] at h
      simp [setKey, hk, ih h]

theorem keys_setKey_absent {α : Type} {m : List (String × α)} {k : String} (v : α)
    (h : lookupKey m k = none) :
    (setKey m k v).map (fun p => p.1) = m.map (fun p => p.1) ++ [k] := by
  induction m with
  | nil => simp [setKey]
  | cons q rest ih =>
    obtain ⟨k1, v1⟩ := q
    by_cases hk : k1 = k
    · simp [lookupKey, hk] at h
    · simp [lookupKey, hk] at h
      simp [setKey, hk, ih h]

theorem keysNodup_setKey {α : Type} {m : List (String × α)} (k : String) (v : α)
    (h : KeysNodup m) : KeysNodup (setKey m k v) := by
  rcases hl : lookupKey m k with _ | w
  · unfold KeysNodup
    rw [keys_setKey_absent v hl]
    have hk : k ∉ m.map (fun p => p.1) := (lookupKey_eq_none_iff m k).mp hl
    rw [List.nodup_append]
    refine ⟨h, List.nodup_singleton k, ?_⟩
    intro a ha hb
    simp only [List.mem_singleton] at hb
    subst hb
    exact hk ha
  · unfold KeysNodup
    rw [keys_setKey_present v (by simp [hl])]
    exact h

theorem mem_setKey {α : Type} {m : List (String × α)} {k : String} {v : α} {p : String × α}
    (h : p ∈ setKey m k v) : p = (k, v) ∨ p ∈ m := by
  induction m with
  | nil => simpa [setKey] using h
  | cons q rest ih =>
    obtain ⟨k1, v1⟩ := q
    by_cases hk : k1 = k
    · simp [setKey, hk] at h
      rcases h with h | h
      · exact Or.inl (by simp [h])
      · exact Or.inr (by simp [h])
    · simp [setKey, hk] at h
      rcases h with h | h
      · exact Or.inr (by simp [h])
      · rcases ih h with h1 | h1
        · exact Or.inl h1
        · exact Or.inr (by simp [h1])

theorem length_setKey_present {α : Type} {m : List (String × α)} {k : String} (v : α)
    (h : lookupKey m k ≠ none) : (setKey m k v).length = m.length := by
  have := congrArg List.length (keys_setKey_present v h)
  simpa using this

theorem mapSum_setKey_absent {m : List (String × String)} {k : String} (v : String)
    (h : lookupKey m k = none) : mapSum (setKey m k v) = mapSum m + (v.length : Int) := by
  induction m with
  | nil => simp [setKey, mapSum]
  | cons q rest ih =>
    obtain ⟨k1, v1⟩ := q
    by_cases hk : k1 = k
    · simp [lookupKey, hk] at h
    · simp [lookupKey, hk] at h
      simp [setKey, hk, mapSum, List.sum_cons] at ih ⊢
      rw [ih h]
      ring

theorem mapSum_setKey_present {m : List (String × String)} {k : String} {v0 : String} (v : String)
    (h : lookupKey m k = some v0) :
    mapSum (setKey m k v) = mapSum m - (v0.length : Int) + (v.length : Int) := by
  induction m with
  | nil => simp [lookupKey] at h
  | cons q rest ih =>
    obtain ⟨k1, v1⟩ := q
    by_cases hk : k1 = k
    · subst hk
      simp [lookupKey] at h
      subst h
      simp [setKey, mapSum, List.sum_cons]
      ring
    · simp [lookupKey, hk] at h
      simp [setKey, hk, mapSum, List.sum_cons] at ih ⊢
      rw [ih h]
      ring

theorem map_setKey_eq {α : Type} {β : Type} {m : List (String × α)} {k : String}
    {v0 : α} (w : α) (g : String × α → β) (h : lookupKey m k = some v0)
    (hg : ∀ key, g (key, w) = g (key, v0)) :
    (setKey m k w).map g = m.map g := by
  induction m with
  | nil => simp [lookupKey] at h
  | cons q rest ih =>
    obtain ⟨k1, v1⟩ := q
    by_cases hk : k1 = k
    · subst hk
      simp [lookupKey] at h
      subst h
      simp [setKey, hg]
    · simp [lookupKey, hk] at h
      simp [setKey, hk, ih h]

/- removeOne: explicit success form. -/

theorem removeOne_ok_spec {id : String} {s : CacheState} {c fn : String}
    (hl : lookupKey s.cachedFiles id = some c)
    (hf : getFilenameFromId id = some fn) :
    ∃ t, removeOne id s = Res.ok t ∧
      t.cachedFiles = delKey s.cachedFiles id ∧
      t.cacheSize = s.cacheSize - (c.length : Int) ∧
      t.fileLRUList = s.fileLRUList ∧
      t.cacheSizeLimit = s.cacheSizeLimit ∧
      t.checkForFileChanges = s.checkForFileChanges ∧
      t.nextWatcher = s.nextWatcher := by
  have hsize : (if c.length ≠ 0 then s.cacheSize - (c.length : Int) else s.cacheSize)
      = s.cacheSize - (c.length : Int) := by
    by_cases h0 : c.length = 0 <;> simp [h0]
  unfold removeOne
  rw [hl, hf]
  dsimp only
  by_cases hck : s.checkForFileChanges
  · rw [if_pos hck]
    rcases htf : lookupKey s.trackedFolders (pathDirname fn) with _ | fi
    · exact ⟨_, rfl, by simp, by simp [hsize], by simp, by simp, by simp, by simp⟩
    · dsimp only
      by_cases hmem : id ∈ fi.fileIds
      · rw [if_pos hmem]
        by_cases h0 : fi.numFiles - 1 = 0
        · rw [if_pos h0]
          exact ⟨_, rfl, by simp, by simp [hsize], by simp, by simp, by simp, by simp⟩
        · rw [if_neg h0]
          exact ⟨_, rfl, by simp, by simp [hsize], by simp, by simp, by simp, by simp⟩
      · rw [if_neg hmem]
        exact ⟨_, rfl, by simp, by simp [hsize], by simp, by simp, by simp, by simp⟩
  · rw [if_neg hck]
    exact ⟨_, rfl, by simp, by simp [hsize], by simp, by simp, by simp, by simp⟩

/- removeOne: inversion of a successful call. -/

theorem removeOne_ok_inversion {id : String} {s t : CacheState}
    (h : removeOne id s = Res.ok t) :
    ∃ c fn, lookupKey s.cachedFiles id = some c ∧ getFilenameFromId id = some fn ∧
      t.cachedFiles = delKey s.cachedFiles id ∧
      t.cacheSize = s.cacheSize - (c.length : Int) ∧
      t.fileLRUList = s.fileLRUList ∧
      t.cacheSizeLimit = s.cacheSizeLimit ∧
      t.checkForFileChanges = s.checkForFileChanges ∧
      t.nextWatcher = s.nextWatcher := by
  rcases hl : lookupKey s.cachedFiles id with _ | c
  · unfold removeOne at h
    rw [hl] at h
    exact absurd h (by simp)
  · rcases hf : getFilenameFromId id with _ | fn
    · unfold removeOne at h
      rw [hl, hf] at h
      exact absurd h (by simp)
    · obtain ⟨t2, ht2, hrest⟩ := removeOne_ok_spec hl hf
      rw [ht2] at h
      obtain rfl : t2 = t := by injection h
      exact ⟨c, fn, rfl, rfl, hrest⟩

/- removeOne preserves the master invariant on every outcome. -/

theorem removeOne_invR {id : String} {s : CacheState} (h : Inv s) : InvR (removeOne id s) := by
  obtain ⟨hsum, hnd, hlim, htrk, hwch⟩ := h
  have hInvS : Inv s := ⟨hsum, hnd, hlim, htrk, hwch⟩
  unfold removeOne
  rcases hl : lookupKey s.cachedFiles id with _ | c
  · exact hInvS
  · have hsize : (if c.length ≠ 0 then s.cacheSize - (c.length : Int) else s.cacheSize)
        = s.cacheSize - (c.length : Int) := by
      by_cases h0 : c.length = 0 <;> simp [h0]
    have hsum2 : mapSum (delKey s.cachedFiles id) = mapSum s.cachedFiles - (c.length : Int) :=
      mapSum_delKey hl
    have hnd2 : KeysNodup (delKey s.cachedFiles id) := keysNodup_delKey id hnd
    have hInv2 : Inv { s with
        cacheSize := if c.length ≠ 0 then s.cacheSize - (c.length : Int) else s.cacheSize
        cachedFiles := delKey s.cachedFiles id } := by
      refine ⟨?_, hnd2, hlim, ?_, ?_⟩
      · show (if c.length ≠ 0 then s.cacheSize - (c.length : Int) else s.cacheSize)
            = mapSum (delKey s.cachedFiles id)
        rw [hsize, hsum2, hsum]
      · exact htrk
      · exact hwch
    dsimp only
    rcases hf : getFilenameFromId id with _ | fn
    · exact hInv2
    · dsimp only
      by_cases hck : s.checkForFileChanges
      · rw [if_pos hck]
        rcases htf : lookupKey s.trackedFolders (pathDirname fn) with _ | fi
        · exact hInv2
        · dsimp only
          have hfimem : (pathDirname fn, fi) ∈ s.trackedFolders := lookupKey_mem htf
          obtain ⟨htrk1, htrk2, htrk3⟩ := htrk
          obtain ⟨hwch1, hwch2, hwch3, hwch4⟩ := hwch
          obtain ⟨hcount, hne, hnodup⟩ := htrk1 _ hfimem
          obtain ⟨hwlt, hwnc⟩ := hwch1 _ hfimem
          dsimp only at hcount hne hnodup hwlt hwnc
          by_cases hmem : id ∈ fi.fileIds
          · rw [if_pos hmem]
            have hperm := delKey_perm htf
            by_cases h0 : fi.numFiles - 1 = 0
            · rw [if_pos h0]
              show Inv _
              have hlen := delKey_length htf
              have hpermw := hperm.map (fun p => p.2.watcher)
              have hndw : ((pathDirname fn, fi) :: delKey s.trackedFolders (pathDirname fn)).map
                  (fun p => p.2.watcher) |>.Nodup := hpermw.nodup_iff.mp hwch2
              simp only [List.map_cons, List.nodup_cons] at hndw
              refine ⟨hInv2.1, hInv2.2.1, hlim, ⟨?_, ?_, ?_⟩, ⟨?_, ?_, ?_, ?_⟩⟩
              · intro p hp
                exact htrk1 p (delKey_subset hp)
              · dsimp only
                rw [htrk2]
                have h2 : ((delKey s.trackedFolders (pathDirname fn)).length : Int) + 1
                    = (s.trackedFolders.length : Int) := by exact_mod_cast hlen
                omega
              · exact keysNodup_delKey _ htrk3
              · intro p hp
                dsimp only at hp ⊢
                have hmem2 := delKey_subset hp
                refine ⟨(hwch1 p hmem2).1, ?_⟩
                intro hc
                rcases List.mem_append.mp hc with hc | hc
                · exact (hwch1 p hmem2).2 hc
                · simp only [List.mem_singleton] at hc
                  exact hndw.1 (hc ▸ List.mem_map_of_mem (fun p => p.2.watcher) hp)
              · dsimp only
                exact List.Nodup.sublist
                  (List.Sublist.map (fun p : String × FolderInfo => p.2.watcher)
                    (delKey_sublist s.trackedFolders (pathDirname fn))) hwch2
              · dsimp only
                rw [List.nodup_append]
                refine ⟨hwch3, List.nodup_singleton _, ?_⟩
                intro a ha hb
                simp only [List.mem_singleton] at hb
                subst hb
                exact hwnc ha
              · intro w hw
                dsimp only at hw ⊢
                rcases List.mem_append.mp hw with hw | hw
                · exact hwch4 w hw
                · simp only [List.mem_singleton] at hw
                  subst hw
                  exact hwlt
            · rw [if_neg h0]
              show Inv _
              refine ⟨hInv2.1, hInv2.2.1, hlim, ⟨?_, ?_, ?_⟩, ⟨?_, ?_, ?_, ?_⟩⟩
              · intro p hp
                dsimp only at hp
                rcases mem_setKey hp with hp1 | hp1
                · subst hp1
                  dsimp only
                  refine ⟨?_, ?_, hnodup.erase id⟩
                  · show fi.numFiles - 1 = _
                    rw [List.length_erase_of_mem hmem]
                    have h1 : 1 ≤ fi.fileIds.length := List.length_pos.mpr (by
                      intro hcon
                      rw [hcon] at hmem
                      simp at hmem)
                    rw [hcount]
                    omega
                  · intro hcon
                    have he0 : (fi.fileIds.erase id).length = 0 := by rw [hcon]; rfl
                    rw [List.length_erase_of_mem hmem] at he0
                    have h1 : 1 ≤ fi.fileIds.length := List.length_pos.mpr (by
                      intro hcon2
                      rw [hcon2] at hmem
                      simp at hmem)
                    have hlen1 : fi.fileIds.length = 1 := by omega
                    apply h0
                    rw [hcount, hlen1]
                    simp
                · exact htrk1 p hp1
              · dsimp only
                rw [htrk2, length_setKey_present _ (by simp [htf])]
              · exact keysNodup_setKey _ _ htrk3
              · intro p hp
                dsimp only at hp ⊢
                rcases mem_setKey hp with hp1 | hp1
                · subst hp1
                  exact ⟨hwlt, hwnc⟩
                · exact hwch1 p hp1
              · dsimp only
                rw [map_setKey_eq
                  { watcher := fi.watcher, fileIds := fi.fileIds.erase id,
                    numFiles := fi.numFiles - 1 }
                  (fun p : String × FolderInfo => p.2.watcher) htf (fun _ => rfl)]
                exact hwch2
              · exact hwch3
              · exact hwch4
          · rw [if_neg hmem]
            exact hInv2
      · rw [if_neg hck]
        exact hInv2

theorem inv_set_lru {s : CacheState} (l : List String) (h : Inv s) :
    Inv { s with fileLRUList := l } := h

theorem removeById_invR {ids : List String} {s : CacheState} (h : Inv s) :
    InvR (removeById ids s) := by
  induction ids generalizing s with
  | nil => exact h
  | cons id rest ih =>
    unfold removeById
    rcases hr : removeOne id s with t | ⟨e, t⟩ | _
    · refine ih ?_
      have h2 : InvR (removeOne id s) := removeOne_invR h
      rw [hr] at h2
      exact h2
    · have h2 : InvR (removeOne id s) := removeOne_invR h
      rw [hr] at h2
      exact h2
    · trivial

theorem makeSpaceGo_invR {target : Int} {lru : List String} {s : CacheState} (h : Inv s) :
    InvR (makeSpaceGo target lru s) := by
  induction lru generalizing s with
  | nil =>
    unfold makeSpaceGo
    by_cases hle : s.cacheSize ≤ target
    · rw [if_pos hle]
      exact h
    · rw [if_neg hle]
      trivial
  | cons x rest ih =>
    unfold makeSpaceGo
    by_cases hle : s.cacheSize ≤ target
    · rw [if_pos hle]
      exact h
    · rw [if_neg hle]
      dsimp only
      have h1 : Inv { s with fileLRUList := rest } := inv_set_lru rest h
      rcases hr : removeOne x { s with fileLRUList := rest } with t | ⟨e, t⟩ | _
      · have h2 : InvR (removeOne x { s with fileLRUList := rest }) := removeOne_invR h1
        rw [hr] at h2
        exact ih h2
      · have h2 : InvR (removeOne x { s with fileLRUList := rest }) := removeOne_invR h1
        rw [hr] at h2
        exact h2
      · trivial

theorem makeSpaceGo_ok_le {target : Int} {lru : List String} {s t : CacheState}
    (h : makeSpaceGo target lru s = Res.ok t) : t.cacheSize ≤ target := by
  induction lru generalizing s with
  | nil =>
    unfold makeSpaceGo at h
    by_cases hle : s.cacheSize ≤ target
    · rw [if_pos hle] at h
      injection h with h2
      subst h2
      exact hle
    · rw [if_neg hle] at h
      exact absurd h (by simp)
  | cons x rest ih =>
    unfold makeSpaceGo at h
    by_cases hle : s.cacheSize ≤ target
    · rw [if_pos hle] at h
      injection h with h2
      subst h2
      exact hle
    · rw [if_neg hle] at h
      dsimp only at h
      rcases hr : removeOne x { s with fileLRUList := rest } with u | ⟨e, u⟩ | _ <;> rw [hr] at h
      · exact ih h
      · exact absurd h (by simp)
      · exact absurd h (by simp)

theorem makeSpaceGo_ok_fields {target : Int} {lru : List String} {s t : CacheState}
    (h : makeSpaceGo target lru s = Res.ok t) :
    t.cacheSizeLimit = s.cacheSizeLimit ∧ t.checkForFileChanges = s.checkForFileChanges := by
  induction lru generalizing s with
  | nil =>
    unfold makeSpaceGo at h
    by_cases hle : s.cacheSize ≤ target
    · rw [if_pos hle] at h
      injection h with h2
      subst h2
      exact ⟨rfl, rfl⟩
    · rw [if_neg hle] at h
      exact absurd h (by simp)
  | cons x rest ih =>
    unfold makeSpaceGo at h
    by_cases hle : s.cacheSize ≤ target
    · rw [if_pos hle] at h
      injection h with h2
      subst h2
      exact ⟨rfl, rfl⟩
    · rw [if_neg hle] at h
      dsimp only at h
      rcases hr : removeOne x { s with fileLRUList := rest } with u | ⟨e, u⟩ | _ <;> rw [hr] at h
      · obtain ⟨c, fn, _, _, _, _, _, hl2, hc2, _⟩ := removeOne_ok_inversion hr
        obtain ⟨ih1, ih2⟩ := ih h
        exact ⟨by rw [ih1, hl2], by rw [ih2, hc2]⟩
      · exact absurd h (by simp)
      · exact absurd h (by simp)

theorem lookupKey_delKey_or {α : Type} {m : List (String × α)} (hnd : KeysNodup m)
    (k x : String) :
    lookupKey (delKey m k) x = none ∨ lookupKey (delKey m k) x = lookupKey m x := by
  by_cases hx : x = k
  · subst hx
    exact Or.inl (lookupKey_delKey_self hnd)
  · exact Or.inr (lookupKey_delKey_ne m hx)

theorem makeSpaceGo_ok_lookup {target : Int} {lru : List String} {s t : CacheState}
    (hnd : KeysNodup s.cachedFiles) (h : makeSpaceGo target lru s = Res.ok t) :
    ∀ x, lookupKey t.cachedFiles x = none ∨ lookupKey t.cachedFiles x = lookupKey s.cachedFiles x := by
  induction lru generalizing s with
  | nil =>
    unfold makeSpaceGo at h
    by_cases hle : s.cacheSize ≤ target
    · rw [if_pos hle] at h
      injection h with h2
      subst h2
      exact fun x => Or.inr rfl
    · rw [if_neg hle] at h
      exact absurd h (by simp)
  | cons y rest ih =>
    unfold makeSpaceGo at h
    by_cases hle : s.cacheSize ≤ target
    · rw [if_pos hle] at h
      injection h with h2
      subst h2
      exact fun x => Or.inr rfl
    · rw [if_neg hle] at h
      dsimp only at h
      rcases hr : removeOne y { s with fileLRUList := rest } with u | ⟨e, u⟩ | _ <;> rw [hr] at h
      · obtain ⟨c, fn, _, _, hmap, _⟩ := removeOne_ok_inversion hr
        have hndu : KeysNodup u.cachedFiles := by
          rw [hmap]
          exact keysNodup_delKey _ hnd
        intro x
        rcases ih hndu h x with hc | hc
        · exact Or.inl hc
        · rw [hc, hmap]
          exact lookupKey_delKey_or hnd y x
      · exact absurd h (by simp)
      · exact absurd h (by simp)

theorem trackFolder_invR {id : String} {s : CacheState} (h : Inv s) :
    InvR (trackFolder id s) := by
  unfold trackFolder
  by_cases hck : s.checkForFileChanges = false
  · rw [if_pos hck]
    exact h
  · rw [if_neg hck]
    rcases hf : getFilenameFromId id with _ | fn
    · exact h
    · dsimp only
      obtain ⟨hsum, hnd, hlim, ⟨ht1, ht2, ht3⟩, ⟨hw1, hw2, hw3, hw4⟩⟩ := h
      rcases htf : lookupKey s.trackedFolders (pathDirname fn) with _ | fi
      · show Inv _
        refine ⟨hsum, hnd, hlim, ⟨?_, ?_, ?_⟩, ⟨?_, ?_, ?_, ?_⟩⟩
        · intro p hp
          dsimp only at hp
          rcases List.mem_append.mp hp with hp | hp
          · exact ht1 p hp
          · simp only [List.mem_singleton] at hp
            subst hp
            exact ⟨by simp, by simp, by simp⟩
        · dsimp only
          rw [List.length_append, ht2]
          push_cast [List.length_singleton]
          ring
        · unfold KeysNodup
          dsimp only
          rw [List.map_append, List.nodup_append]
          refine ⟨ht3, by simp, ?_⟩
          intro a ha hb
          simp only [List.map_cons, List.map_nil, List.mem_singleton] at hb
          subst hb
          exact (lookupKey_eq_none_iff _ _).mp htf ha
        · intro p hp
          dsimp only at hp ⊢
          rcases List.mem_append.mp hp with hp | hp
          · obtain ⟨hlt, hnc⟩ := hw1 p hp
            exact ⟨Nat.lt_succ_of_lt hlt, hnc⟩
          · simp only [List.mem_singleton] at hp
            subst hp
            refine ⟨Nat.lt_succ_self _, ?_⟩
            intro hc
            exact absurd (hw4 _ hc) (by simp)
        · dsimp only
          rw [List.map_append, List.nodup_append]
          refine ⟨hw2, by simp, ?_⟩
          intro a ha hb
          simp only [List.map_cons, List.map_nil, List.mem_singleton] at hb
          obtain ⟨p, hp, hpa⟩ := List.mem_map.mp ha
          have := (hw1 p hp).1
          omega
        · exact hw3
        · intro w hw
          exact Nat.lt_succ_of_lt (hw4 w hw)
      · dsimp only
        have hfimem : (pathDirname fn, fi) ∈ s.trackedFolders := lookupKey_mem htf
        obtain ⟨hcount, hne0, hnodup⟩ := ht1 _ hfimem
        obtain ⟨hwlt, hwnc⟩ := hw1 _ hfimem
        dsimp only at hcount hne0 hnodup hwlt hwnc
        by_cases hmem : id ∈ fi.fileIds
        · rw [if_pos hmem]
          exact ⟨hsum, hnd, hlim, ⟨ht1, ht2, ht3⟩, ⟨hw1, hw2, hw3, hw4⟩⟩
        · rw [if_neg hmem]
          show Inv _
          refine ⟨hsum, hnd, hlim, ⟨?_, ?_, ?_⟩, ⟨?_, ?_, ?_, ?_⟩⟩
          · intro p hp
            dsimp only at hp
            rcases mem_setKey hp with hp1 | hp1
            · subst hp1
              dsimp only
              refine ⟨?_, by simp, ?_⟩
              · rw [hcount, List.length_append]
                push_cast [List.length_singleton]
                ring
              · rw [List.nodup_append]
                refine ⟨hnodup, by simp, ?_⟩
                intro a ha hb
                simp only [List.mem_singleton] at hb
                subst hb
                exact hmem ha
            · exact ht1 p hp1
          · dsimp only
            rw [ht2, length_setKey_present _ (by simp [htf])]
          · exact keysNodup_setKey _ _ ht3
          · intro p hp
            dsimp only at hp ⊢
            rcases mem_setKey hp with hp1 | hp1
            · subst hp1
              exact ⟨hwlt, hwnc⟩
            · exact hw1 p hp1
          · dsimp only
            rw [map_setKey_eq
              { watcher := fi.watcher, fileIds := fi.fileIds ++ [id],
                numFiles := fi.numFiles + 1 }
              (fun p : String × FolderInfo => p.2.watcher) htf (fun _ => rfl)]
            exact hw2
          · exact hw3
          · exact hw4

theorem trackFolder_ok_fields {id : String} {s t : CacheState}
    (h : trackFolder id s = Res.ok t) :
    t.cacheSize = s.cacheSize ∧ t.cacheSizeLimit = s.cacheSizeLimit ∧
    t.cachedFiles = s.cachedFiles ∧ t.fileLRUList = s.fileLRUList := by
  unfold trackFolder at h
  by_cases hck : s.checkForFileChanges = false
  · rw [if_pos hck] at h
    injection h with h2
    subst h2
    exact ⟨rfl, rfl, rfl, rfl⟩
  · rw [if_neg hck] at h
    rcases hf : getFilenameFromId id with _ | fn <;> rw [hf] at h
    · exact absurd h (by simp)
    · dsimp only at h
      rcases htf : lookupKey s.trackedFolders (pathDirname fn) with _ | fi <;> rw [htf] at h
      · injection h with h2
        subst h2
        exact ⟨rfl, rfl, rfl, rfl⟩
      · dsimp only at h
        by_cases hmem : id ∈ fi.fileIds
        · rw [if_pos hmem] at h
          injection h with h2
          subst h2
          exact ⟨rfl, rfl, rfl, rfl⟩
        · rw [if_neg hmem] at h
          injection h with h2
          subst h2
          exact ⟨rfl, rfl, rfl, rfl⟩

theorem getContent_state (id : String) (s : CacheState) :
    (getContentFromCache id s).2.cachedFiles = s.cachedFiles ∧
    (getContentFromCache id s).2.cacheSize = s.cacheSize ∧
    (getContentFromCache id s).2.cacheSizeLimit = s.cacheSizeLimit ∧
    (getContentFromCache id s).2.checkForFileChanges = s.checkForFileChanges ∧
    (getContentFromCache id s).1 = lookupKey s.cachedFiles id ∧
    (Inv s → Inv (getContentFromCache id s).2) := by
  unfold getContentFromCache
  rcases hl : lookupKey s.cachedFiles id with _ | c
  · exact ⟨rfl, rfl, rfl, rfl, rfl, fun h => h⟩
  · dsimp only
    by_cases hmem : id ∈ s.fileLRUList
    · rw [if_pos hmem]
      exact ⟨rfl, rfl, rfl, rfl, rfl, fun h => h⟩
    · rw [if_neg hmem]
      exact ⟨rfl, rfl, rfl, rfl, rfl, fun h => h⟩

theorem cacheContent_invR {id data : String} {s : CacheState} (h : Inv s)
    (hold : lookupKey s.cachedFiles id = none ∨ lookupKey s.cachedFiles id = some "") :
    InvR (cacheContent id data s) := by
  unfold cacheContent
  by_cases hsz : (data.length : Int) ≤ s.cacheSizeLimit
  · rw [if_pos hsz]
    unfold makeSpaceInCache
    rcases hms : makeSpaceGo (max 0 (s.cacheSizeLimit - (data.length : Int)))
        s.fileLRUList s with t | ⟨e, t⟩ | _
    · have hInvT : Inv t := by
        have h2 : InvR (makeSpaceGo (max 0 (s.cacheSizeLimit - (data.length : Int)))
            s.fileLRUList s) := makeSpaceGo_invR h
        rw [hms] at h2
        exact h2
      have hLook : lookupKey t.cachedFiles id = none ∨ lookupKey t.cachedFiles id = some "" := by
        rcases makeSpaceGo_ok_lookup h.2.1 hms id with hx | hx
        · exact Or.inl hx
        · rw [hx]
          exact hold
      have hInvU : Inv { t with
          cachedFiles := setKey t.cachedFiles id data
          cacheSize := t.cacheSize + (data.length : Int)
          fileLRUList := t.fileLRUList ++ [id] } := by
        obtain ⟨hsum, hnd, hlim, htrk, hwch⟩ := hInvT
        refine ⟨?_, ?_, hlim, htrk, hwch⟩
        · show t.cacheSize + (data.length : Int) = mapSum (setKey t.cachedFiles id data)
          rcases hLook with hx | hx
          · rw [mapSum_setKey_absent _ hx, ← hsum]
          · rw [mapSum_setKey_present _ hx, ← hsum]
            simp
        · exact keysNodup_setKey _ _ hnd
      exact trackFolder_invR hInvU
    · have h2 : InvR (makeSpaceGo (max 0 (s.cacheSizeLimit - (data.length : Int)))
          s.fileLRUList s) := makeSpaceGo_invR h
      rw [hms] at h2
      exact h2
    · trivial
  · rw [if_neg hsz]
    exact h

theorem removeByFilename_invR {fn : String} {s : CacheState} (h : Inv s) :
    InvR (removeByFilename fn s) := by
  unfold removeByFilename
  rcases hc : collectByName fn s.cachedFiles with _ | ids
  · exact h
  · exact removeById_invR h

theorem removeByFolder_invR {d : String} {s : CacheState} (h : Inv s) :
    InvR (removeByFolder d s) := by
  unfold removeByFolder
  rcases hm : s.cachedFiles with _ | ⟨p, rest⟩
  · exact h
  · exact h

theorem watchCallback_invR {d : String} {n : Option String} {s : CacheState} (h : Inv s) :
    InvR (watchCallback d n s) := by
  unfold watchCallback
  rcases n with _ | fn
  · exact removeByFolder_invR h
  · dsimp only
    by_cases hfn : fn = ""
    · rw [if_pos hfn]
      exact removeByFolder_invR h
    · rw [if_neg hfn]
      exact removeByFilename_invR h

theorem clear_inv {s : CacheState} (h : Inv s) : Inv (clearCache s) := by
  obtain ⟨hsum, hnd, hlim, ⟨ht1, ht2, ht3⟩, ⟨hw1, hw2, hw3, hw4⟩⟩ := h
  refine ⟨?_, ?_, hlim, ⟨?_, ?_, ?_⟩, ⟨?_, ?_, ?_, ?_⟩⟩
  · show (0 : Int) = mapSum []
    simp [mapSum]
  · show KeysNodup ([] : List (String × String))
    simp [KeysNodup]
  · intro p hp
    exact absurd hp (List.not_mem_nil p)
  · show (0 : Int) = (([] : List (String × FolderInfo)).length : Int)
    simp
  · show KeysNodup ([] : List (String × FolderInfo))
    simp [KeysNodup]
  · intro p hp
    exact absurd hp (List.not_mem_nil p)
  · show (([] : List (String × FolderInfo)).map (fun p => p.2.watcher)).Nodup
    simp
  · show (s.closedWatchers ++ s.trackedFolders.map (fun p => p.2.watcher)).Nodup
    rw [List.nodup_append]
    refine ⟨hw3, hw2, ?_⟩
    intro a ha hb
    obtain ⟨p, hp, hpa⟩ := List.mem_map.mp hb
    refine (hw1 p hp).2 ?_
    rw [hpa]
    exact ha
  · intro w hw
    show w < s.nextWatcher
    rcases List.mem_append.mp hw with hw | hw
    · exact hw4 w hw
    · obtain ⟨p, hp, hpa⟩ := List.mem_map.mp hw
      rw [← hpa]
      exact (hw1 p hp).1

theorem setLimit_invR {n : Int} {s : CacheState} (h : Inv s) :
    InvR (setCacheSizeLimit n s) := by
  unfold setCacheSizeLimit makeSpaceInCache
  apply makeSpaceGo_invR
  obtain ⟨hsum, hnd, hlim, htrk, hwch⟩ := h
  exact ⟨hsum, hnd, le_max_left _ _, htrk, hwch⟩

theorem readFileSync_invRS {f : String} {o : JsVal} {d : String} {s : CacheState}
    (h : Inv s) : InvRS (readFileSync f o d s) := by
  unfold readFileSync
  dsimp only
  obtain ⟨hcf, hcs, hcl, hcc, hfst, hinv⟩ := getContent_state (makeId f o) s
  rcases hg : getContentFromCache (makeId f o) s with ⟨copt, s1⟩
  rw [hg] at hcf hcs hcl hcc hfst
  dsimp only at hcf hcs hcl hcc hfst
  have hInv1 : Inv s1 := by
    have h2 := hinv h
    rw [hg] at h2
    exact h2
  rcases copt with _ | c
  · dsimp only
    have hold : lookupKey s1.cachedFiles (makeId f o) = none := by
      rw [hcf]
      exact hfst.symm
    rcases hc : cacheContent (makeId f o) d s1 with s2 | ⟨e, s2⟩ | _
    · have h2 : InvR (cacheContent (makeId f o) d s1) := cacheContent_invR hInv1 (Or.inl hold)
      rw [hc] at h2
      exact h2
    · have h2 : InvR (cacheContent (makeId f o) d s1) := cacheContent_invR hInv1 (Or.inl hold)
      rw [hc] at h2
      exact h2
    · trivial
  · dsimp only
    by_cases hce : c = ""
    · rw [if_pos hce]
      subst hce
      have hold : lookupKey s1.cachedFiles (makeId f o) = some "" := by
        rw [hcf]
        exact hfst.symm
      rcases hc : cacheContent (makeId f o) d s1 with s2 | ⟨e, s2⟩ | _
      · have h2 : InvR (cacheContent (makeId f o) d s1) := cacheContent_invR hInv1 (Or.inr hold)
        rw [hc] at h2
        exact h2
      · have h2 : InvR (cacheContent (makeId f o) d s1) := cacheContent_invR hInv1 (Or.inr hold)
        rw [hc] at h2
        exact h2
      · trivial
    · rw [if_neg hce]
      exact hInv1

theorem readFile_invRA {f : String} {o : JsVal} {d : Option String} {s : CacheState}
    (h : Inv s) : InvRA (readFile f o d s) := by
  unfold readFile
  dsimp only
  obtain ⟨hcf, hcs, hcl, hcc, hfst, hinv⟩ := getContent_state (makeId f o) s
  rcases hg : getContentFromCache (makeId f o) s with ⟨copt, s1⟩
  rw [hg] at hcf hcs hcl hcc hfst
  dsimp only at hcf hcs hcl hcc hfst
  have hInv1 : Inv s1 := by
    have h2 := hinv h
    rw [hg] at h2
    exact h2
  rcases copt with _ | c
  · dsimp only
    rcases d with _ | data
    · exact hInv1
    · dsimp only
      have hold : lookupKey s1.cachedFiles (makeId f o) = none := by
        rw [hcf]
        exact hfst.symm
      rcases hc : cacheContent (makeId f o) data s1 with s2 | ⟨e, s2⟩ | _
      · have h2 : InvR (cacheContent (makeId f o) data s1) := cacheContent_invR hInv1 (Or.inl hold)
        rw [hc] at h2
        exact h2
      · have h2 : InvR (cacheContent (makeId f o) data s1) := cacheContent_invR hInv1 (Or.inl hold)
        rw [hc] at h2
        exact h2
      · trivial
  · exact hInv1

/- Every reachable state, including states left behind by a thrown
   exception, satisfies the master invariant. -/

theorem reach_inv {s : CacheState} (h : Reach s) : Inv s := by
  induction h with
  | init lim chk =>
    refine ⟨rfl, by simp [KeysNodup, initState], ?_,
      ⟨?_, rfl, by simp [KeysNodup, initState]⟩,
      ⟨?_, by simp [initState], by simp [initState], ?_⟩⟩
    · show (0 : Int) ≤ _
      rcases lim with _ | n
      · norm_num [initState]
      · by_cases h0 : n = 0
        · simp [initState, h0]
        · simp only [initState, if_neg h0]
          exact Int.ofNat_nonneg n
    · intro p hp
      exact absurd hp (List.not_mem_nil p)
    · intro p hp
      exact absurd hp (List.not_mem_nil p)
    · intro w hw
      exact absurd hw (List.not_mem_nil w)
  | @syncOk u f o d r hs heq ih =>
    have h2 : InvRS (readFileSync f o d u) := readFileSync_invRS ih
    rw [heq] at h2
    exact h2
  | @syncErr u f o d e t hs heq ih =>
    have h2 : InvRS (readFileSync f o d u) := readFileSync_invRS ih
    rw [heq] at h2
    exact h2
  | @asyncOk u f o d r hs heq ih =>
    have h2 : InvRA (readFile f o d u) := readFile_invRA ih
    rw [heq] at h2
    exact h2
  | @asyncErr u f o d e t hs heq ih =>
    have h2 : InvRA (readFile f o d u) := readFile_invRA ih
    rw [heq] at h2
    exact h2
  | @watchOk u dn n t hs heq ih =>
    have h2 : InvR (watchCallback dn n u) := watchCallback_invR ih
    rw [heq] at h2
    exact h2
  | @watchErr u dn n e t hs heq ih =>
    have h2 : InvR (watchCallback dn n u) := watchCallback_invR ih
    rw [heq] at h2
    exact h2
  | @limitOk u n t hs heq ih =>
    have h2 : InvR (setCacheSizeLimit n u) := setLimit_invR ih
    rw [heq] at h2
    exact h2
  | @limitErr u n e t hs heq ih =>
    have h2 : InvR (setCacheSizeLimit n u) := setLimit_invR ih
    rw [heq] at h2
    exact h2
  | clearStep hs ih =>
    exact clear_inv ih

/- Size bound after operations that complete normally. -/

theorem cacheContent_ok_le {id data : String} {s t : CacheState}
    (h : cacheContent id data s = Res.ok t) : t.cacheSize ≤ t.cacheSizeLimit := by
  unfold cacheContent at h
  by_cases hsz : (data.length : Int) ≤ s.cacheSizeLimit
  · rw [if_pos hsz] at h
    unfold makeSpaceInCache at h
    rcases hms : makeSpaceGo (max 0 (s.cacheSizeLimit - (data.length : Int)))
        s.fileLRUList s with u | ⟨e, u⟩ | _ <;> rw [hms] at h
    · have hle := makeSpaceGo_ok_le hms
      obtain ⟨hl1, _⟩ := makeSpaceGo_ok_fields hms
      obtain ⟨hc1, hc2, _, _⟩ := trackFolder_ok_fields h
      rw [hc1, hc2]
      dsimp only
      have hmax : max 0 (s.cacheSizeLimit - (data.length : Int))
          = s.cacheSizeLimit - (data.length : Int) := by
        rw [max_eq_right]
        omega
      rw [hmax] at hle
      rw [hl1]
      omega
    · exact absurd h (by simp)
    · exact absurd h (by simp)
  · rw [if_neg hsz] at h
    exact absurd h (by simp)

theorem removeById_ok_le {ids : List String} {s t : CacheState}
    (h : removeById ids s = Res.ok t) :
    t.cacheSize ≤ s.cacheSize ∧ t.cacheSizeLimit = s.cacheSizeLimit := by
  induction ids generalizing s with
  | nil =>
    unfold removeById at h
    injection h with h2
    subst h2
    exact ⟨le_refl _, rfl⟩
  | cons id rest ih =>
    unfold removeById at h
    rcases hr : removeOne id s with u | ⟨e, u⟩ | _ <;> rw [hr] at h
    · obtain ⟨c, fn, _, _, _, hsz, _, hlim, _, _⟩ := removeOne_ok_inversion hr
      obtain ⟨ih1, ih2⟩ := ih h
      constructor
      · calc t.cacheSize ≤ u.cacheSize := ih1
          _ = s.cacheSize - (c.length : Int) := hsz
          _ ≤ s.cacheSize := by
              have : (0 : Int) ≤ (c.length : Int) := Int.ofNat_nonneg _
              omega
      · rw [ih2, hlim]
    · exact absurd h (by simp)
    · exact absurd h (by simp)

theorem watchCallback_ok_le {dn : String} {n : Option String} {s t : CacheState}
    (hle : s.cacheSize ≤ s.cacheSizeLimit) (h : watchCallback dn n s = Res.ok t) :
    t.cacheSize ≤ t.cacheSizeLimit := by
  have hfolder : ∀ {u : CacheState}, removeByFolder dn s = Res.ok u →
      u.cacheSize ≤ u.cacheSizeLimit := by
    intro u hu
    unfold removeByFolder at hu
    rcases hm : s.cachedFiles with _ | ⟨p, rest⟩ <;> rw [hm] at hu
    · unfold removeById at hu
      injection hu with h2
      subst h2
      exact hle
    · exact absurd hu (by simp)
  have hname : ∀ {fn : String} {u : CacheState}, removeByFilename fn s = Res.ok u →
      u.cacheSize ≤ u.cacheSizeLimit := by
    intro fn u hu
    unfold removeByFilename at hu
    rcases hc : collectByName fn s.cachedFiles with _ | ids <;> rw [hc] at hu
    · exact absurd hu (by simp)
    · obtain ⟨h1, h2⟩ := removeById_ok_le hu
      rw [h2]
      exact le_trans h1 hle
  unfold watchCallback at h
  rcases n with _ | fn
  · exact hfolder h
  · dsimp only at h
    by_cases hfn : fn = ""
    · rw [if_pos hfn] at h
      exact hfolder h
    · rw [if_neg hfn] at h
      exact hname h

theorem setLimit_ok_le {n : Int} {s t : CacheState}
    (h : setCacheSizeLimit n s = Res.ok t) : t.cacheSize ≤ t.cacheSizeLimit := by
  unfold setCacheSizeLimit makeSpaceInCache at h
  have hle := makeSpaceGo_ok_le h
  obtain ⟨hl1, _⟩ := makeSpaceGo_ok_fields h
  dsimp only at hl1 hle
  have hmax : max 0 (max 0 n - 0) = max 0 n := by
    rcases le_total 0 n with h1 | h1 <;> simp [max_eq_right, max_eq_left, h1]
  rw [hmax] at hle
  rw [hl1]
  exact hle

theorem readFileSync_ok_le {f : String} {o : JsVal} {d : String} {s : CacheState}
    {r : SyncOut} (hle : s.cacheSize ≤ s.cacheSizeLimit)
    (h : readFileSync f o d s = Res.ok r) :
    r.state.cacheSize ≤ r.state.cacheSizeLimit := by
  unfold readFileSync at h
  dsimp only at h
  obtain ⟨hcf, hcs, hcl, hcc, hfst, hinv⟩ := getContent_state (makeId f o) s
  rcases hg : getContentFromCache (makeId f o) s with ⟨copt, s1⟩
  rw [hg] at h hcf hcs hcl hcc hfst
  dsimp only at h hcf hcs hcl hcc hfst
  rcases copt with _ | c
  · dsimp only at h
    rcases hc : cacheContent (makeId f o) d s1 with s2 | ⟨e, s2⟩ | _ <;> rw [hc] at h
    · injection h with h2
      subst h2
      exact cacheContent_ok_le hc
    · exact absurd h (by simp)
    · exact absurd h (by simp)
  · dsimp only at h
    by_cases hce : c = ""
    · rw [if_pos hce] at h
      rcases hc : cacheContent (makeId f o) d s1 with s2 | ⟨e, s2⟩ | _ <;> rw [hc] at h
      · injection h with h2
        subst h2
        exact cacheContent_ok_le hc
      · exact absurd h (by simp)
      · exact absurd h (by simp)
    · rw [if_neg hce] at h
      injection h with h2
      subst h2
      dsimp only
      rw [hcs, hcl]
      exact hle

theorem readFile_ok_le {f : String} {o : JsVal} {d : Option String} {s : CacheState}
    {r : AsyncOut} (hle : s.cacheSize ≤ s.cacheSizeLimit)
    (h : readFile f o d s = Res.ok r) :
    r.state.cacheSize ≤ r.state.cacheSizeLimit := by
  unfold readFile at h
  dsimp only at h
  obtain ⟨hcf, hcs, hcl, hcc, hfst, hinv⟩ := getContent_state (makeId f o) s
  rcases hg : getContentFromCache (makeId f o) s with ⟨copt, s1⟩
  rw [hg] at h hcf hcs hcl hcc hfst
  dsimp only at h hcf hcs hcl hcc hfst
  rcases copt with _ | c
  · dsimp only at h
    rcases d with _ | data
    · dsimp only at h
      injection h with h2
      subst h2
      dsimp only
      rw [hcs, hcl]
      exact hle
    · dsimp only at h
      rcases hc : cacheContent (makeId f o) data s1 with s2 | ⟨e, s2⟩ | _ <;> rw [hc] at h
      · injection h with h2
        subst h2
        exact cacheContent_ok_le hc
      · exact absurd h (by simp)
      · exact absurd h (by simp)
  · dsimp only at h
    injection h with h2
    subst h2
    dsimp only
    rw [hcs, hcl]
    exact hle

theorem cleanReach_reach {s : CacheState} (h : CleanReach s) : Reach s := by
  induction h with
  | init lim chk => exact Reach.init lim chk
  | syncOk hs heq ih => exact Reach.syncOk ih heq
  | asyncOk hs heq ih => exact Reach.asyncOk ih heq
  | watchOk hs heq ih => exact Reach.watchOk ih heq
  | limitOk hs heq ih => exact Reach.limitOk ih heq
  | clearStep hs ih => exact Reach.clearStep ih

/- States reachable through normally completing operations also
   respect the size limit. -/

theorem clean_le {s : CacheState} (h : CleanReach s) :
    s.cacheSize ≤ s.cacheSizeLimit := by
  induction h with
  | init lim chk =>
    show (0 : Int) ≤ _
    rcases lim with _ | n
    · norm_num [initState]
    · by_cases h0 : n = 0
      · simp [initState, h0]
      · simp only [initState, if_neg h0]
        exact Int.ofNat_nonneg n
  | @syncOk u f o d r hs heq ih => exact readFileSync_ok_le ih heq
  | @asyncOk u f o d r hs heq ih => exact readFile_ok_le ih heq
  | @watchOk u dn n t hs heq ih => exact watchCallback_ok_le ih heq
  | @limitOk u n t hs heq ih => exact setLimit_ok_le heq
  | @clearStep u hs ih =>
    show (0 : Int) ≤ u.cacheSizeLimit
    exact (reach_inv (cleanReach_reach hs)).2.2.1

/- JSON string escaping round trip. -/

theorem dropStart_append (p rest : List Char) : dropStart p (p ++ rest) = some rest := by
  induction p with
  | nil => rfl
  | cons c cs ih => simp [dropStart, ih]

theorem hexVal_hexDigitChar {n : Nat} (h : n < 16) : hexVal (hexDigitChar n) = some n := by
  interval_cases n <;> decide

theorem decodeStrGo_escape (c : Char) (rest : List Char) :
    decodeStrGo (escapeJsonChar c ++ rest) =
      (decodeStrGo rest).map (fun p => (c :: p.1, p.2)) := by
  by_cases h1 : c = '"'
  · subst h1
    show decodeStrGo ('\\' :: '"' :: rest) = _
    conv_lhs => unfold decodeStrGo
    simp [unescapeChar]
  · by_cases h2 : c = '\\'
    · subst h2
      show decodeStrGo ('\\' :: '\\' :: rest) = _
      conv_lhs => unfold decodeStrGo
      simp [unescapeChar]
    · by_cases h3 : c = Char.ofNat 8
      · subst h3
        show decodeStrGo ('\\' :: 'b' :: rest) = _
        conv_lhs => unfold decodeStrGo
        simp [unescapeChar]
      · by_cases h4 : c = Char.ofNat 9
        · subst h4
          show decodeStrGo ('\\' :: 't' :: rest) = _
          conv_lhs => unfold decodeStrGo
          simp [unescapeChar]
        · by_cases h5 : c = Char.ofNat 10
          · subst h5
            show decodeStrGo ('\\' :: 'n' :: rest) = _
            conv_lhs => unfold decodeStrGo
            simp [unescapeChar]
          · by_cases h6 : c = Char.ofNat 12
            · subst h6
              show decodeStrGo ('\\' :: 'f' :: rest) = _
              conv_lhs => unfold decodeStrGo
              simp [unescapeChar]
            · by_cases h7 : c = Char.ofNat 13
              · subst h7
                show decodeStrGo ('\\' :: 'r' :: rest) = _
                conv_lhs => unfold decodeStrGo
                simp [unescapeChar]
              · by_cases h8 : c.toNat < 32
                · have hesc : escapeJsonChar c =
                      ['\\', 'u', '0', '0', hexDigitChar (c.toNat / 16),
                        hexDigitChar (c.toNat % 16)] := by
                    unfold escapeJsonChar
                    rw [if_neg h1, if_neg h2, if_neg h3, if_neg h4, if_neg h5, if_neg h6,
                      if_neg h7, if_pos h8]
                  rw [hesc]
                  have hd : decodeHex4 '0' '0' (hexDigitChar (c.toNat / 16))
                      (hexDigitChar (c.toNat % 16)) = some c.toNat := by
                    unfold decodeHex4
                    rw [show hexVal '0' = some 0 from by decide,
                      hexVal_hexDigitChar (by omega : c.toNat / 16 < 16),
                      hexVal_hexDigitChar (Nat.mod_lt _ (by norm_num) : c.toNat % 16 < 16)]
                    dsimp only
                    have harith : ((0 * 16 + 0) * 16 + c.toNat / 16) * 16 + c.toNat % 16
                        = c.toNat := by omega
                    rw [harith]
                  show decodeStrGo ('\\' :: 'u' :: '0' :: '0'
                      :: hexDigitChar (c.toNat / 16) :: hexDigitChar (c.toNat % 16) :: rest) = _
                  conv_lhs => unfold decodeStrGo
                  simp [hd, Char.ofNat_toNat]
                · have hesc : escapeJsonChar c = [c] := by
                    unfold escapeJsonChar
                    rw [if_neg h1, if_neg h2, if_neg h3, if_neg h4, if_neg h5, if_neg h6,
                      if_neg h7, if_neg h8]
                  rw [hesc]
                  show decodeStrGo (c :: rest) = _
                  conv_lhs => unfold decodeStrGo
                  rw [if_neg h1, if_neg h2]

theorem decodeStrGo_escapeChars (cs tail : List Char) :
    decodeStrGo (escapeChars cs ++ ('"' :: tail)) = some (cs, tail) := by
  induction cs with
  | nil =>
    show decodeStrGo ('"' :: tail) = some ([], tail)
    conv_lhs => unfold decodeStrGo
    simp
  | cons c cs ih =>
    have hre : escapeChars (c :: cs) ++ ('"' :: tail)
        = escapeJsonChar c ++ (escapeChars cs ++ ('"' :: tail)) := by
      simp [escapeChars]
    rw [hre, decodeStrGo_escape, ih]
    rfl

theorem makeId_data (f : String) (o : JsVal) :
    (makeId f o).data = "\x7b\"filename\":\"".data ++
      (escapeChars f.data ++ ('"' :: optionsChunk o)) := by
  unfold makeId optionsChunk
  rcases stringifyVal o with _ | os <;>
  · simp [String.data_append, encodeJsonString]

theorem getFilenameFromId_makeId (f : String) (o : JsVal) :
    getFilenameFromId (makeId f o) = some f := by
  unfold getFilenameFromId
  rw [makeId_data, dropStart_append]
  dsimp only
  rw [decodeStrGo_escapeChars]

/- trackFolder succeeds whenever the id parses, and touches neither
   the store nor the LRU list. -/

theorem trackFolder_ok_of_parse {id fn : String} {s : CacheState}
    (hf : getFilenameFromId id = some fn) :
    ∃ t, trackFolder id s = Res.ok t ∧ t.cacheSize = s.cacheSize ∧
      t.cacheSizeLimit = s.cacheSizeLimit ∧ t.cachedFiles = s.cachedFiles ∧
      t.fileLRUList = s.fileLRUList := by
  unfold trackFolder
  by_cases hck : s.checkForFileChanges = false
  · rw [if_pos hck]
    exact ⟨_, rfl, rfl, rfl, rfl, rfl⟩
  · rw [if_neg hck, hf]
    dsimp only
    rcases htf : lookupKey s.trackedFolders (pathDirname fn) with _ | fi
    · exact ⟨_, rfl, by simp, by simp, by simp, by simp⟩
    · dsimp only
      by_cases hmem2 : id ∈ fi.fileIds
      · rw [if_pos hmem2]
        exact ⟨_, rfl, rfl, rfl, rfl, rfl⟩
      · rw [if_neg hmem2]
        exact ⟨_, rfl, by simp, by simp, by simp, by simp⟩

/- takenSize arithmetic. -/

theorem takenSize_zero (s : CacheState) (l : List String) : takenSize s l 0 = 0 := rfl

theorem takenSize_succ_cons (s : CacheState) (x : String) (l : List String) (j : Nat) :
    takenSize s (x :: l) (j + 1)
      = (((lookupKey s.cachedFiles x).getD "").length : Int) + takenSize s l j := by
  simp [takenSize, List.take_succ_cons]

theorem takenSize_congr {s t : CacheState} {l : List String} (j : Nat)
    (h : ∀ y ∈ l, lookupKey t.cachedFiles y = lookupKey s.cachedFiles y) :
    takenSize t l j = takenSize s l j := by
  unfold takenSize
  congr 1
  refine List.map_congr_left ?_
  intro a ha
  rw [h a (List.mem_of_mem_take ha)]

/- withoutIds and filters. -/

theorem withoutIds_nil (m : List (String × String)) : withoutIds m [] = m := by
  unfold withoutIds
  induction m with
  | nil => rfl
  | cons p rest ih => simp [ih]

theorem withoutIds_cons_notmem (m : List (String × String)) (id : String)
    (rest : List String) (h : id ∉ m.map (fun p => p.1)) :
    withoutIds m (id :: rest) = withoutIds m rest := by
  induction m with
  | nil => rfl
  | cons q tl ih =>
    obtain ⟨k, v⟩ := q
    simp only [List.map_cons, List.mem_cons] at h
    push_neg at h
    have hk : ¬ (k = id) := fun hh => h.1 hh.symm
    unfold withoutIds at ih ⊢
    simp only [List.filter_cons]
    have hdec : (decide ((k, v).1 ∈ id :: rest)) = (decide ((k, v).1 ∈ rest)) := by
      simp [List.mem_cons, hk]
    rw [hdec, ih h.2]

theorem withoutIds_delKey :
    ∀ (m : List (String × String)) (id : String) (rest : List String),
      KeysNodup m → withoutIds (delKey m id) rest = withoutIds m (id :: rest) := by
  intro m id rest
  induction m with
  | nil => intro _; rfl
  | cons p tl ih =>
    intro hnd
    obtain ⟨k, v⟩ := p
    simp only [KeysNodup, List.map_cons, List.nodup_cons] at hnd
    obtain ⟨hknot, hndtl⟩ := hnd
    by_cases hk : k = id
    · subst hk
      rw [show delKey ((k, v) :: tl) k = tl from by simp [delKey]]
      have h2 := withoutIds_cons_notmem tl k rest hknot
      unfold withoutIds at h2 ⊢
      simp only [List.filter_cons]
      have hc : (!(decide ((k, v).1 ∈ k :: rest))) = false := by simp
      rw [hc, h2]
      simp
    · rw [show delKey ((k, v) :: tl) id = (k, v) :: delKey tl id from by simp [delKey, hk]]
      have h2 := ih hndtl
      unfold withoutIds at h2 ⊢
      simp only [List.filter_cons]
      have hdec : (decide ((k, v).1 ∈ id :: rest)) = (decide ((k, v).1 ∈ rest)) := by
        simp [List.mem_cons, hk]
      rw [hdec, h2]

theorem withoutIds_filter_keys :
    ∀ (m : List (String × String)) (q : String × String → Bool),
      KeysNodup m →
      withoutIds m ((m.filter q).map (fun p => p.1)) = m.filter (fun p => !(q p)) := by
  intro m q
  induction m with
  | nil => intro _; rfl
  | cons p rest ih =>
    intro hnd
    obtain ⟨k, v⟩ := p
    simp only [KeysNodup, List.map_cons, List.nodup_cons] at hnd
    obtain ⟨hknot, hndr⟩ := hnd
    have hsubkeys : ∀ x ∈ (rest.filter q).map (fun p => p.1), x ∈ rest.map (fun p => p.1) := by
      intro x hx
      obtain ⟨p2, hp2, hval⟩ := List.mem_map.mp hx
      exact List.mem_map.mpr ⟨p2, List.mem_of_mem_filter hp2, hval⟩
    have h3 := ih hndr
    unfold withoutIds at h3
    by_cases hq : q (k, v)
    · rw [show ((k, v) :: rest).filter q = (k, v) :: rest.filter q from by
        simp [List.filter_cons, hq]]
      rw [show ((k, v) :: rest.filter q).map (fun p => p.1)
          = k :: (rest.filter q).map (fun p => p.1) from by simp]
      have h2 := withoutIds_cons_notmem rest k ((rest.filter q).map (fun p => p.1)) hknot
      unfold withoutIds at h2 ⊢
      simp only [List.filter_cons]
      have hc : (!(decide ((k, v).1 ∈ k :: (rest.filter q).map (fun p => p.1)))) = false := by
        simp
      rw [hc, h2, h3]
      simp [hq]
    · rw [show ((k, v) :: rest).filter q = rest.filter q from by
        simp [List.filter_cons, hq]]
      have hnotmem : (k, v).1 ∉ (rest.filter q).map (fun p => p.1) := by
        intro hc
        exact hknot (hsubkeys _ hc)
      unfold withoutIds
      simp only [List.filter_cons]
      have hc : (!(decide ((k, v).1 ∈ (rest.filter q).map (fun p => p.1)))) = true := by
        simp [hnotmem]
      rw [hc, h3]
      simp [hq]

/- removeById on a list of present, parsable, distinct ids succeeds,
   removes exactly those entries from the content map, and leaves the
   LRU list untouched. -/

theorem removeById_ok_withoutIds :
    ∀ (ids : List String) (s : CacheState),
      KeysNodup s.cachedFiles →
      ids.Nodup →
      (∀ id ∈ ids, lookupKey s.cachedFiles id ≠ none) →
      (∀ id ∈ ids, (getFilenameFromId id).isSome) →
      ∃ t, removeById ids s = Res.ok t ∧
        t.cachedFiles = withoutIds s.cachedFiles ids ∧
        t.fileLRUList = s.fileLRUList := by
  intro ids
  induction ids with
  | nil =>
    intro s _ _ _ _
    exact ⟨s, rfl, (withoutIds_nil _).symm, rfl⟩
  | cons id rest ih =>
    intro s hnd hids hpres hparse
    obtain ⟨c, hc⟩ : ∃ c, lookupKey s.cachedFiles id = some c := by
      rcases hl : lookupKey s.cachedFiles id with _ | c
      · exact absurd hl (hpres id (by simp))
      · exact ⟨c, rfl⟩
    obtain ⟨fn, hfn⟩ : ∃ fn, getFilenameFromId id = some fn :=
      Option.isSome_iff_exists.mp (hparse id (by simp))
    obtain ⟨t1, ht1, htm, htsz, htlru, _, _, _⟩ := removeOne_ok_spec hc hfn
    have hnd1 : KeysNodup t1.cachedFiles := by
      rw [htm]
      exact keysNodup_delKey _ hnd
    obtain ⟨hidni, hids1⟩ := List.nodup_cons.mp hids
    have hpres1 : ∀ x ∈ rest, lookupKey t1.cachedFiles x ≠ none := by
      intro x hx
      have hxid : x ≠ id := fun hh => hidni (hh ▸ hx)
      rw [htm, lookupKey_delKey_ne _ hxid]
      exact hpres x (by simp [hx])
    have hparse1 : ∀ x ∈ rest, (getFilenameFromId x).isSome :=
      fun x hx => hparse x (by simp [hx])
    obtain ⟨t, ht, htm2, htlru2⟩ := ih t1 hnd1 hids1 hpres1 hparse1
    refine ⟨t, ?_, ?_, ?_⟩
    · unfold removeById
      rw [ht1]
      exact ht
    · rw [htm2, htm, withoutIds_delKey _ _ _ hnd]
    · rw [htlru2, htlru]

/- The collection loop of removeByFilename gathers exactly the keys
   whose id names the target file, in insertion order. -/

theorem collectByName_eq (target : String) :
    ∀ m : List (String × String), (∀ p ∈ m, (getFilenameFromId p.1).isSome) →
      collectByName target m
        = some ((m.filter (fun p => decide (getFilenameFromId p.1 = some target))).map
            (fun p => p.1)) := by
  intro m
  induction m with
  | nil => intro _; rfl
  | cons p rest ih =>
    intro h
    obtain ⟨k, v⟩ := p
    obtain ⟨fn, hfn⟩ := Option.isSome_iff_exists.mp (h (k, v) (by simp))
    unfold collectByName
    rw [hfn, ih (fun q hq => h q (by simp [hq]))]
    dsimp only
    by_cases ht : fn = target
    · subst ht
      rw [if_pos rfl]
      simp [List.filter_cons, hfn]
    · rw [if_neg ht]
      simp [List.filter_cons, hfn, ht]

/- The eviction loop on a healthy store: it succeeds, removes exactly
   a prefix of the LRU order, stops as soon as the state fits, and
   each entry removed was removed only while the store was still over
   the target. -/

theorem makeSpaceGo_bij :
    ∀ (lru : List String) (s : CacheState) (target : Int),
      0 ≤ target →
      s.fileLRUList = lru →
      lru.Nodup →
      (∀ x ∈ lru, lookupKey s.cachedFiles x ≠ none) →
      (∀ p ∈ s.cachedFiles, p.1 ∈ lru) →
      (∀ x ∈ lru, (getFilenameFromId x).isSome) →
      SumInv s → KeysNodup s.cachedFiles →
      ∃ (k : Nat) (t : CacheState),
        makeSpaceGo target lru s = Res.ok t ∧
        t.fileLRUList = lru.drop k ∧
        t.cacheSize ≤ target ∧
        t.cacheSize = s.cacheSize - takenSize s lru k ∧
        t.cacheSizeLimit = s.cacheSizeLimit ∧
        (∀ j, j < k → target < s.cacheSize - takenSize s lru j) := by
  intro lru
  induction lru with
  | nil =>
    intro s target htgt hlru _ _ hkeys _ hsum hnd
    have hmnil : s.cachedFiles = [] := by
      refine List.eq_nil_iff_forall_not_mem.mpr ?_
      intro p hp
      simpa using hkeys p hp
    have hsz : s.cacheSize = 0 := by
      rw [hsum, hmnil]
      rfl
    have hle : s.cacheSize ≤ target := by omega
    refine ⟨0, s, ?_, by simp [hlru], hle, by simp [takenSize_zero], rfl, ?_⟩
    · unfold makeSpaceGo
      rw [if_pos hle]
    · intro j hj
      omega
  | cons x rest ih =>
    intro s target htgt hlru hnodup hpres hkeys hparse hsum hnd
    by_cases hle : s.cacheSize ≤ target
    · refine ⟨0, s, ?_, by simp [hlru], hle, by simp [takenSize_zero], rfl, ?_⟩
      · unfold makeSpaceGo
        rw [if_pos hle]
      · intro j hj
        omega
    · obtain ⟨hxni, hnodup1⟩ := List.nodup_cons.mp hnodup
      obtain ⟨cx, hcx⟩ : ∃ c, lookupKey s.cachedFiles x = some c := by
        rcases hl : lookupKey s.cachedFiles x with _ | c
        · exact absurd hl (hpres x (by simp))
        · exact ⟨c, rfl⟩
      obtain ⟨fnx, hfnx⟩ : ∃ fn, getFilenameFromId x = some fn :=
        Option.isSome_iff_exists.mp (hparse x (by simp))
      have hcx2 : lookupKey ({ s with fileLRUList := rest } : CacheState).cachedFiles x
          = some cx := hcx
      obtain ⟨t1, ht1, htm, htsz, htlru, htlim, htchk, _⟩ := removeOne_ok_spec hcx2 hfnx
      have htm1 : t1.cachedFiles = delKey s.cachedFiles x := htm
      have htsz1 : t1.cacheSize = s.cacheSize - (cx.length : Int) := htsz
      have htlru1 : t1.fileLRUList = rest := htlru
      have htlim1 : t1.cacheSizeLimit = s.cacheSizeLimit := htlim
      have hcongr : ∀ y ∈ rest, lookupKey t1.cachedFiles y = lookupKey s.cachedFiles y := by
        intro y hy
        have hyx : y ≠ x := by
          intro hh
          rw [hh] at hy
          exact hxni hy
        rw [htm1, lookupKey_delKey_ne _ hyx]
      have hpres1 : ∀ y ∈ rest, lookupKey t1.cachedFiles y ≠ none := by
        intro y hy
        rw [hcongr y hy]
        exact hpres y (by simp [hy])
      have hkeys1 : ∀ p ∈ t1.cachedFiles, p.1 ∈ rest := by
        intro p hp
        rw [htm1] at hp
        have hsome := lookupKey_isSome_of_mem hp
        by_cases hpx : p.1 = x
        · rw [hpx, lookupKey_delKey_self hnd] at hsome
          simp at hsome
        · have := hkeys p (delKey_subset hp)
          rcases List.mem_cons.mp this with h1 | h1
          · exact absurd h1 hpx
          · exact h1
      have hparse1 : ∀ y ∈ rest, (getFilenameFromId y).isSome :=
        fun y hy => hparse y (by simp [hy])
      have hsum1 : SumInv t1 := by
        show t1.cacheSize = mapSum t1.cachedFiles
        rw [htsz1, htm1, mapSum_delKey hcx, hsum]
      have hnd1 : KeysNodup t1.cachedFiles := by
        rw [htm1]
        exact keysNodup_delKey _ hnd
      obtain ⟨k1, t, hok, hlrud, hlet, hszt, hlimt, hmint⟩ :=
        ih t1 target htgt htlru1 hnodup1 hpres1 hkeys1 hparse1 hsum1 hnd1
      refine ⟨k1 + 1, t, ?_, ?_, hlet, ?_, ?_, ?_⟩
      · unfold makeSpaceGo
        rw [if_neg hle]
        dsimp only
        rw [ht1]
        exact hok
      · rw [hlrud]
        rfl
      · rw [hszt, htsz1, takenSize_congr k1 hcongr, takenSize_succ_cons]
        rw [hcx]
        dsimp only [Option.getD_some]
        ring
      · rw [hlimt, htlim1]
      · intro j hj
        rcases j with _ | j2
        · rw [takenSize_zero]
          omega
        · have hj2 : j2 < k1 := by omega
          have hm := hmint j2 hj2
          rw [takenSize_congr j2 hcongr, htsz1] at hm
          rw [takenSize_succ_cons, hcx]
          dsimp only [Option.getD_some]
          omega

/- ------------------------------------------------------------------ -/
/- Claim theorems. -/
/- ------------------------------------------------------------------ -/

/-- C1 counterexample: the size/limit invariant fails.  Cache two
10-byte files in directory a, deliver a watch event for a/x (which
removes the map entry but, due to the property-lookup slip, not the
LRU entry), then shrink the limit to 5: the eviction loop throws a
TypeError on the stale LRU id, and a subsequent successfully completed
read still observes cacheSize above the limit. -/
theorem claim1_limit_counterexample :
    ∃ (r1 r2 : SyncOut) (s3 : CacheState) (e : JsErr) (s4 : CacheState) (r5 : SyncOut),
      readFileSync "a/x" utf8 "0123456789" (initState (some 100) true) = Res.ok r1 ∧
      readFileSync "a/y" utf8 "0123456789" r1.state = Res.ok r2 ∧
      watchCallback "a" (some "x") r2.state = Res.ok s3 ∧
      setCacheSizeLimit 5 s3 = Res.err e s4 ∧
      readFileSync "a/y" utf8 "" s4 = Res.ok r5 ∧
      r5.state.cacheSizeLimit < r5.state.cacheSize := by
  refine ⟨{ content := "0123456789", state := c1s1, didRead := true },
          { content := "0123456789", state := c1s2, didRead := true },
          c1s3, JsErr.typeErr "cannot read length of undefined", c1s4,
          { content := "0123456789", state := c1s4, didRead := false },
          ?_, ?_, ?_, ?_, ?_, ?_⟩ <;> decide

/-- C1 (amended): the byte count equals the sum of the entry sizes in
every reachable state, including states left behind by a throwing
operation; the limit bound additionally holds in every state reached
through operations that all completed normally. -/
theorem claim1_amended :
    (∀ s : CacheState, Reach s → s.cacheSize = mapSum s.cachedFiles) ∧
    (∀ s : CacheState, CleanReach s →
        s.cacheSize = mapSum s.cachedFiles ∧ s.cacheSize ≤ s.cacheSizeLimit) := by
  constructor
  · intro s hs
    exact (reach_inv hs).1
  · intro s hs
    exact ⟨(reach_inv (cleanReach_reach hs)).1, clean_le hs⟩

/-- C1 witness: the amended invariant evaluated at a fresh cache. -/
theorem claim1_witness :
    (initState (some 9) true).cacheSize = mapSum (initState (some 9) true).cachedFiles ∧
    ((initState (some 9) true).cacheSize = mapSum (initState (some 9) true).cachedFiles ∧
      (initState (some 9) true).cacheSize ≤ (initState (some 9) true).cacheSizeLimit) :=
  ⟨claim1_amended.1 (initState (some 9) true) (Reach.init (some 9) true),
   claim1_amended.2 (initState (some 9) true) (CleanReach.init (some 9) true)⟩

/-- C2: the claimed LRU/content-map bijection is broken by the code:
cache a/x, then deliver a watch event naming x under a.  The entry is
deleted from the content map, but the line var index = g_fileLRUList[id]
looks the id up as an object property (always undefined), so the id is
never spliced out and survives in the LRU list with no map entry. -/
theorem claim2_lru_bijection_broken :
    ∃ (r : SyncOut) (t : CacheState),
      readFileSync "a/x" utf8 "hello" (initState (some 100) true) = Res.ok r ∧
      watchCallback "a" (some "x") r.state = Res.ok t ∧
      makeId "a/x" utf8 ∈ t.fileLRUList ∧
      lookupKey t.cachedFiles (makeId "a/x" utf8) = none := by
  refine ⟨_, _, rfl, rfl, ?_, rfl⟩
  decide

/-- C3: directory-wide invalidation is refuted: with one cached entry
under directory sub, a watch notification for sub carrying no filename
runs removeByFolder, whose loop body reads the undeclared variable
g_delim and throws a ReferenceError; nothing is evicted, the entry
stays cached and the folder stays tracked. -/
theorem claim3_folder_invalidation_throws :
    ∃ r : SyncOut,
      readFileSync "sub/f.txt" utf8 "abc" (initState (some 100) true) = Res.ok r ∧
      watchCallback "sub" none r.state
        = Res.err (JsErr.refErr "g_delim is not defined") r.state ∧
      lookupKey r.state.cachedFiles (makeId "sub/f.txt" utf8) = some "abc" ∧
      r.state.numTrackedFolders = 1 := by
  refine ⟨_, rfl, rfl, rfl, rfl⟩

/-- C4: insertion evicts in strict LRU order.  On a healthy store,
caching content that fits under the limit removes a minimal prefix of
the LRU list (each entry removed only while the store was still over
the space target), appends the new id at the most-recently-used end,
and lands at or under the limit.  Concretely with limit 9: caching
5-byte A then 4-byte B reaches cacheSize 9, and a further 3-byte C
evicts exactly A, leaving cacheSize 7 with B and C cached. -/
theorem claim4_lru_eviction :
    (∀ (s : CacheState) (id data : String),
      BijInv s →
      (getFilenameFromId id).isSome →
      lookupKey s.cachedFiles id = none →
      (data.length : Int) ≤ s.cacheSizeLimit →
      ∃ (k : Nat) (t : CacheState),
        cacheContent id data s = Res.ok t ∧
        t.fileLRUList = s.fileLRUList.drop k ++ [id] ∧
        t.cacheSize = s.cacheSize - takenSize s s.fileLRUList k + (data.length : Int) ∧
        t.cacheSize ≤ s.cacheSizeLimit ∧
        (∀ j, j < k → max 0 (s.cacheSizeLimit - (data.length : Int))
            < s.cacheSize - takenSize s s.fileLRUList j)) ∧
    (∃ (r1 r2 r3 : SyncOut),
      readFileSync "d/A" utf8 "aaaaa" (initState (some 9) true) = Res.ok r1 ∧
      readFileSync "d/B" utf8 "bbbb" r1.state = Res.ok r2 ∧
      r2.state.cacheSize = 9 ∧
      readFileSync "d/C" utf8 "ccc" r2.state = Res.ok r3 ∧
      r3.state.cacheSize = 7 ∧
      lookupKey r3.state.cachedFiles (makeId "d/A" utf8) = none ∧
      lookupKey r3.state.cachedFiles (makeId "d/B" utf8) = some "bbbb" ∧
      lookupKey r3.state.cachedFiles (makeId "d/C" utf8) = some "ccc" ∧
      r3.state.fileLRUList = [makeId "d/B" utf8, makeId "d/C" utf8] ∧
      r3.state.numTrackedFolders = 1) := by
  constructor
  · intro s id data hbij hparse hlook hfit
    unfold BijInv at hbij
    obtain ⟨hsum, hnd, hlrund, hlrupres, hkeys, hidsok⟩ := hbij
    obtain ⟨fn, hfn⟩ := Option.isSome_iff_exists.mp hparse
    have h0 : (0 : Int) ≤ max 0 (s.cacheSizeLimit - (data.length : Int)) :=
      le_max_left 0 (s.cacheSizeLimit - (data.length : Int))
    obtain ⟨k, t1, hok, hlrud, hlet, hszt, hlimt, hmint⟩ :=
      makeSpaceGo_bij s.fileLRUList s (max 0 (s.cacheSizeLimit - (data.length : Int)))
        h0 rfl hlrund hlrupres hkeys hidsok hsum hnd
    obtain ⟨t, htk, htsz, htlim, htmap, htlru⟩ :=
      @trackFolder_ok_of_parse id fn
        { t1 with
          cachedFiles := setKey t1.cachedFiles id data
          cacheSize := t1.cacheSize + (data.length : Int)
          fileLRUList := t1.fileLRUList ++ [id] } hfn
    have hmax : max 0 (s.cacheSizeLimit - (data.length : Int))
        = s.cacheSizeLimit - (data.length : Int) := max_eq_right (by omega)
    refine ⟨k, t, ?_, ?_, ?_, ?_, ?_⟩
    · unfold cacheContent
      rw [if_pos hfit]
      unfold makeSpaceInCache
      rw [hok]
      dsimp only
      exact htk
    · rw [htlru]
      dsimp only
      rw [hlrud]
    · rw [htsz]
      dsimp only
      rw [hszt]
    · rw [hmax] at hlet
      rw [htsz]
      dsimp only
      omega
    · intro j hj
      exact hmint j hj
  · refine ⟨{ content := "aaaaa", state := c4sA, didRead := true },
            { content := "bbbb", state := c4sB, didRead := true },
            { content := "ccc", state := c4sC, didRead := true },
            ?_, ?_, ?_, ?_, ?_, ?_, ?_, ?_, ?_, ?_⟩ <;> decide

/-- C4 witness: the general eviction theorem evaluated on a fresh
cache with limit 9 and a first 5-byte insertion (no eviction needed,
so the prefix removed is empty). -/
theorem claim4_witness :
    ∃ (k : Nat) (t : CacheState),
      cacheContent (makeId "d/A" utf8) "aaaaa" (initState (some 9) true) = Res.ok t ∧
      t.fileLRUList = (initState (some 9) true).fileLRUList.drop k ++ [makeId "d/A" utf8] ∧
      t.cacheSize = (initState (some 9) true).cacheSize
        - takenSize (initState (some 9) true) (initState (some 9) true).fileLRUList k
        + ("aaaaa".length : Int) ∧
      t.cacheSize ≤ (initState (some 9) true).cacheSizeLimit ∧
      (∀ j, j < k →
        max 0 ((initState (some 9) true).cacheSizeLimit - ("aaaaa".length : Int))
          < (initState (some 9) true).cacheSize
            - takenSize (initState (some 9) true) (initState (some 9) true).fileLRUList j) :=
  claim4_lru_eviction.1 (initState (some 9) true) (makeId "d/A" utf8) "aaaaa"
    (by
      unfold BijInv SumInv KeysNodup IdsOk
      refine ⟨rfl, ?_, ?_, ?_, ?_, ?_⟩ <;> simp [initState])
    (by decide) rfl (by decide)

/-- C5 counterexample: evicting an absent id is not silently ignored:
on a fresh cache, removeById of a list holding an unknown id throws a
TypeError reading contents.length of undefined. -/
theorem claim5_counterexample :
    removeById ["x"] (initState (some 100) true)
      = Res.err (JsErr.typeErr "cannot read length of undefined")
          (initState (some 100) true) := rfl

/-- C5 (amended): for every id missing from the content map, removeById
on a list starting with that id throws a TypeError (reading .length of
the undefined entry) before mutating anything, instead of silently
skipping the id. -/
theorem claim5_amended (id : String) (rest : List String) (s : CacheState)
    (h : lookupKey s.cachedFiles id = none) :
    removeById (id :: rest) s
      = Res.err (JsErr.typeErr "cannot read length of undefined") s := by
  unfold removeById removeOne
  rw [h]

/-- C5 witness: the amended statement evaluated on a fresh cache and an
unknown id. -/
theorem claim5_witness :
    removeById ["nope"] (initState (some 50) true)
      = Res.err (JsErr.typeErr "cannot read length of undefined")
          (initState (some 50) true) :=
  claim5_amended "nope" [] (initState (some 50) true) rfl

/-- C6: the claim that oversized content is silently declined is
refuted: with limit 4, a 5-byte synchronous read takes the oversized
branch of cacheContent, which references the undeclared variable
filename in its debug message and therefore throws a ReferenceError
instead of returning the content uncached. -/
theorem claim6_oversized_throws :
    readFileSync "big.file" utf8 "12345" (initState (some 4) true)
      = Res.err (JsErr.refErr "filename is not defined")
          (initState (some 4) true) := rfl

/-- C7: a watch notification for directory D naming file F evicts
exactly the cached entries whose id resolves to the joined path of D
and F (all options variants of that file), keeping every entry for any
other filename; the LRU list is left untouched by the removal. -/
theorem claim7_file_invalidation (s : CacheState) (D F : String)
    (hnd : KeysNodup s.cachedFiles)
    (hp : ∀ p ∈ s.cachedFiles, (getFilenameFromId p.1).isSome)
    (hF : F ≠ "") :
    ∃ t, watchCallback D (some F) s = Res.ok t ∧
      t.cachedFiles = keepOtherNames s.cachedFiles (pathJoin D F) ∧
      t.fileLRUList = s.fileLRUList := by
  unfold watchCallback
  dsimp only
  rw [if_neg hF]
  unfold removeByFilename
  rw [collectByName_eq (pathJoin D F) s.cachedFiles hp]
  dsimp only
  have hsub : List.Sublist
      ((s.cachedFiles.filter
          (fun p => decide (getFilenameFromId p.1 = some (pathJoin D F)))).map
        (fun p => p.1))
      (s.cachedFiles.map (fun p => p.1)) :=
    List.Sublist.map (fun p => p.1) (List.filter_sublist s.cachedFiles)
  have hidsnd : ((s.cachedFiles.filter
      (fun p => decide (getFilenameFromId p.1 = some (pathJoin D F)))).map
        (fun p => p.1)).Nodup :=
    List.Nodup.sublist hsub hnd
  have hpres : ∀ id ∈ (s.cachedFiles.filter
      (fun p => decide (getFilenameFromId p.1 = some (pathJoin D F)))).map
        (fun p => p.1), lookupKey s.cachedFiles id ≠ none := by
    intro id hid
    obtain ⟨q, hq, hqe⟩ := List.mem_map.mp hid
    have hqm : q ∈ s.cachedFiles := List.mem_of_mem_filter hq
    have := lookupKey_isSome_of_mem hqm
    rw [hqe] at this
    intro hc
    rw [hc] at this
    simp at this
  have hparse : ∀ id ∈ (s.cachedFiles.filter
      (fun p => decide (getFilenameFromId p.1 = some (pathJoin D F)))).map
        (fun p => p.1), (getFilenameFromId id).isSome := by
    intro id hid
    obtain ⟨q, hq, hqe⟩ := List.mem_map.mp hid
    have hqm : q ∈ s.cachedFiles := List.mem_of_mem_filter hq
    have := hp q hqm
    rw [hqe] at this
    exact this
  obtain ⟨t, ht, htm, htlru⟩ :=
    removeById_ok_withoutIds
      ((s.cachedFiles.filter
          (fun p => decide (getFilenameFromId p.1 = some (pathJoin D F)))).map
        (fun p => p.1)) s hnd hidsnd hpres hparse
  refine ⟨t, ht, ?_, htlru⟩
  rw [htm, withoutIds_filter_keys s.cachedFiles
    (fun p => decide (getFilenameFromId p.1 = some (pathJoin D F))) hnd]
  rfl

/-- C7 witness: file-specific invalidation evaluated on a store holding
sub/a.txt under two options plus sub/b.txt: a watch event naming a.txt
keeps exactly the b.txt entry. -/
theorem claim7_witness :
    ∃ t, watchCallback "sub" (some "a.txt") fileInvalState = Res.ok t ∧
      t.cachedFiles = keepOtherNames fileInvalState.cachedFiles (pathJoin "sub" "a.txt") ∧
      t.fileLRUList = fileInvalState.fileLRUList :=
  claim7_file_invalidation fileInvalState "sub" "a.txt"
    (by unfold KeysNodup; decide) (by decide) (by decide)

/-- C8: id derivation is pure and round-trips the path: makeId is a
function of its arguments alone (equal arguments give equal ids, and
every pair produces some id), and getFilenameFromId recovers the
original filename from the id makeId built. -/
theorem claim8_id_roundtrip :
    (∀ (f : String) (o : JsVal), getFilenameFromId (makeId f o) = some f) ∧
    (∀ (f g : String) (o p : JsVal), f = g → o = p → makeId f o = makeId g p) := by
  constructor
  · exact getFilenameFromId_makeId
  · intro f g o p hf ho
    rw [hf, ho]

/-- C8 witness: the round trip evaluated on a concrete path and
options value. -/
theorem claim8_witness :
    getFilenameFromId (makeId "sub/a.txt" utf8) = some "sub/a.txt" ∧
    makeId "sub/a.txt" utf8 = makeId "sub/a.txt" utf8 :=
  ⟨claim8_id_roundtrip.1 "sub/a.txt" utf8,
   claim8_id_roundtrip.2 "sub/a.txt" "sub/a.txt" utf8 utf8 rfl rfl⟩

/-- C9: folder-tracker bookkeeping holds in every reachable state:
each tracker counts exactly its tracked ids and no tracker with zero
ids survives; the global tracker count matches the map; live watch
handles are never among the closed ones, and no handle is closed
twice. -/
theorem claim9_tracker_invariant :
    ∀ s : CacheState, Reach s →
      (∀ p ∈ s.trackedFolders,
         p.2.numFiles = (p.2.fileIds.length : Int) ∧ p.2.fileIds ≠ []) ∧
      s.numTrackedFolders = (s.trackedFolders.length : Int) ∧
      (∀ p ∈ s.trackedFolders, p.2.watcher ∉ s.closedWatchers) ∧
      s.closedWatchers.Nodup := by
  intro s hs
  have h := reach_inv hs
  unfold Inv TrackInv WatchInv at h
  obtain ⟨-, -, -, ⟨ht1, ht2, -⟩, hw1, -, hw3, -⟩ := h
  exact ⟨fun p hp => ⟨(ht1 p hp).1, (ht1 p hp).2.1⟩, ht2,
    fun p hp => (hw1 p hp).2, hw3⟩

/-- C9 witness: the tracker invariant evaluated at a fresh cache. -/
theorem claim9_witness :
    (∀ p ∈ (initState (some 9) true).trackedFolders,
       p.2.numFiles = (p.2.fileIds.length : Int) ∧ p.2.fileIds ≠ []) ∧
    (initState (some 9) true).numTrackedFolders
      = ((initState (some 9) true).trackedFolders.length : Int) ∧
    (∀ p ∈ (initState (some 9) true).trackedFolders,
       p.2.watcher ∉ (initState (some 9) true).closedWatchers) ∧
    (initState (some 9) true).closedWatchers.Nodup :=
  claim9_tracker_invariant (initState (some 9) true) (Reach.init (some 9) true)

/-- C10: a cached empty string is falsy, so readFileSync treats the
hit as a miss: it performs the external read again and pushes a
duplicate of the id onto the LRU list, while readFile for the same
path and options serves the cached empty copy without any external
read; the two paths are not equivalent on empty files. -/
theorem claim10_empty_miss (s : CacheState) (f : String) (o : JsVal) (d : String)
    (hlook : lookupKey s.cachedFiles (makeId f o) = some "")
    (hmem : makeId f o ∈ s.fileLRUList)
    (hnn : 0 ≤ s.cacheSize)
    (hfit : s.cacheSize + (d.length : Int) ≤ s.cacheSizeLimit) :
    (∃ r : SyncOut, readFileSync f o d s = Res.ok r ∧ r.didRead = true ∧
      r.content = d ∧
      r.state.fileLRUList.count (makeId f o)
        = s.fileLRUList.count (makeId f o) + 1) ∧
    (∃ r2 : AsyncOut, readFile f o (some d) s = Res.ok r2 ∧ r2.didRead = false ∧
      r2.cbData = some "") := by
  have hgc : getContentFromCache (makeId f o) s
      = (some "", { s with fileLRUList := s.fileLRUList.erase (makeId f o) ++ [makeId f o] }) := by
    unfold getContentFromCache
    rw [hlook]
    dsimp only
    rw [if_pos hmem]
  have hms1 : s.cacheSize ≤ max 0 (s.cacheSizeLimit - (d.length : Int)) :=
    le_trans (by omega) (le_max_right 0 (s.cacheSizeLimit - (d.length : Int)))
  have hms : makeSpaceInCache (d.length : Int)
      { s with fileLRUList := s.fileLRUList.erase (makeId f o) ++ [makeId f o] }
      = Res.ok { s with fileLRUList := s.fileLRUList.erase (makeId f o) ++ [makeId f o] } := by
    unfold makeSpaceInCache makeSpaceGo
    dsimp only
    rw [if_pos hms1]
  have hfit2 : (d.length : Int) ≤ s.cacheSizeLimit := by omega
  obtain ⟨t, htk, htsz, htlim, htmap, htlru⟩ :=
    @trackFolder_ok_of_parse (makeId f o) f
      { s with
        cachedFiles := setKey s.cachedFiles (makeId f o) d
        cacheSize := s.cacheSize + (d.length : Int)
        fileLRUList := (s.fileLRUList.erase (makeId f o) ++ [makeId f o]) ++ [makeId f o] }
      (getFilenameFromId_makeId f o)
  have hcc : cacheContent (makeId f o) d
      { s with fileLRUList := s.fileLRUList.erase (makeId f o) ++ [makeId f o] }
      = Res.ok t := by
    unfold cacheContent
    dsimp only
    rw [if_pos hfit2, hms]
    dsimp only
    exact htk
  constructor
  · refine ⟨{ content := d, state := t, didRead := true }, ?_, rfl, rfl, ?_⟩
    · unfold readFileSync
      dsimp only
      rw [hgc]
      dsimp only
      rw [if_pos rfl, hcc]
    · rw [htlru]
      dsimp only
      have hpos : 0 < s.fileLRUList.count (makeId f o) := List.count_pos_iff.mpr hmem
      have h1 : ([makeId f o] : List String).count (makeId f o) = 1 := by simp
      rw [List.count_append, List.count_append, List.count_erase_self, h1]
      omega
  · refine Exists.intro
      { cbData := some ""
        state := { s with fileLRUList := s.fileLRUList.erase (makeId f o) ++ [makeId f o] }
        didRead := false } ⟨?_, rfl, rfl⟩
    unfold readFile
    dsimp only
    rw [hgc]

/-- C10 witness: the sync/async divergence evaluated on a store
holding a single cached empty file. -/
theorem claim10_witness :
    (∃ r : SyncOut, readFileSync "d/e" utf8 "zz" emptyEntryState = Res.ok r ∧
      r.didRead = true ∧ r.content = "zz" ∧
      r.state.fileLRUList.count (makeId "d/e" utf8)
        = emptyEntryState.fileLRUList.count (makeId "d/e" utf8) + 1) ∧
    (∃ r2 : AsyncOut, readFile "d/e" utf8 (some "zz") emptyEntryState = Res.ok r2 ∧
      r2.didRead = false ∧ r2.cbData = some "") :=
  claim10_empty_miss emptyEntryState "d/e" utf8 "zz"
    (by decide) (by decide) (by decide) (by decide)


end InMemFileCache
